import Mathlib

/-!
# Mancala server (`mancsrv.c`): a shallow embedding

The server keeps two globals: the singly linked list `playerlist` and the
pointer `curr_p` to the player whose turn it is.

* The linked list is a `List player`, head first.
* A `struct player *` that points at a node of the list is the position of
  that node in the list (`0` is `playerlist` itself); `NULL` is `none`.
  `p->next` is therefore position `p + 1`, or `NULL` when `p` is the last node.
  When a node is linked in front of the list (`acc_player`) every old node
  moves one position up, and when the node at position `d` is unlinked
  (`del_player`) every node behind it moves one position down; a stored
  pointer is re-indexed accordingly.
* `int` is `Int`, and the `int` additions whose result can leave the 32-bit
  range (`p->pits[i] += 1`, `npebbles += p->pits[i]`, `npebbles - 1`) wrap into
  it (`int_wrap`), as the compiled program does; `char[]` strings are
  `List Char`.
* `send_all(fd, buf, len)` appends the pair `(fd, text)` to the output of the
  operation; console output (`printf`) is not modelled.
* An operation returns `none` where the C code would dereference a pointer
  that is not a node of the list, or where its loop does not terminate.
* The bytes that arrive on a descriptor are the list of chunks that the
  successive calls of `recv` find ready; an empty chunk is a closed connection.
* `long` has 64 bits, and its conversion to `int` keeps the low 32 bits.
-/

namespace Mancala

/-- Source constant `MAXNAME`: maximum permitted name size, not including the NUL. -/
def MAXNAME : Nat := 80

/-- Source constant `NPITS`: number of pits on a side, not including the end pit. -/
def NPITS : Nat := 6

/-- Source constant `NPEBBLES`: initial number of pebbles per pit. -/
def NPEBBLES : Int := 4

/-- Source constant `MAXMESSAGE`, defined as `MAXNAME + 50`. -/
def MAXMESSAGE : Nat := MAXNAME + 50

/-- The largest value of the 32-bit type `int`. -/
def INT_MAX : Int := 2147483647

/-- The smallest value of the 32-bit type `int`. -/
def INT_MIN : Int := -2147483648

/-- The value that a 32-bit `int` holds after an addition or subtraction whose
exact result is `v`: `v` itself when it is in the range of `int`, and `v`
wrapped into that range (two's complement) when the operation overflows. -/
def int_wrap (v : Int) : Int :=
  (v + 2147483648) % 4294967296 - 2147483648

/-- The array `int pits[NPITS+1]`: cells `0..NPITS-1` are the regular pits,
cell `NPITS` is the end pit. -/
abbrev Pits := { l : List Int // l.length = NPITS + 1 }

/-- Read `pits[i]` for a C `int` index `i` (cells outside the array read as 0;
the code never reads them). -/
def Pits.get (b : Pits) (i : Int) : Int :=
  if 0 ≤ i then b.val.getD i.toNat 0 else 0

/-- Write `pits[i] = v` for a C `int` index `i` (a write outside the array is
dropped; the code never performs one). -/
def Pits.put (b : Pits) (i : Int) (v : Int) : Pits :=
  if 0 ≤ i then ⟨b.val.set i.toNat v, by rw [List.length_set]; exact b.property⟩ else b

/-- The zeroed array that `calloc` returns. -/
def Pits.zero : Pits := ⟨List.replicate (NPITS + 1) 0, by simp⟩

/-- The record `struct player`; the `next` field is the position in the list. -/
structure player where
  fd : Int
  name : List Char
  pits : Pits
  prompted : Int
deriving DecidableEq

/-- The two globals `playerlist` and `curr_p`. -/
structure Server where
  playerlist : List player
  curr_p : Option Nat
deriving DecidableEq

/-- One call of `send_all(fd, text, strlen(text))`. -/
abbrev Send := Int × List Char

/-- The state before `main` runs: `playerlist = NULL`, `curr_p = NULL`. -/
def Server.init : Server := ⟨[], none⟩

/-- Function `send_all`: nothing is sent when the text is empty (`inbuf < len` fails at once). -/
def send_all (fd : Int) (text : List Char) : List Send :=
  if text = [] then [] else [(fd, text)]

/-- The effect of `snprintf(dst, len, ...)` on the produced text: at most
`len - 1` characters are stored. -/
def snprintf (len : Int) (text : List Char) : List Char :=
  text.take (len - 1).toNat

/-- The conversion `%d`. -/
def fmt_d (v : Int) : List Char :=
  if v < 0 then '-' :: Nat.toDigits 10 v.natAbs else Nat.toDigits 10 v.toNat

/-- The pointer `playerlist` itself: the head node, or `NULL`. -/
def head_ptr (ps : List player) : Option Nat :=
  if ps = [] then none else some 0

/-- The field `p->next` of the node at position `p`. -/
def next_ptr (ps : List player) (p : Nat) : Option Nat :=
  if p + 1 < ps.length then some (p + 1) else none

/-- Function `next_player` (lines 551-556). -/
def next_player (ps : List player) (p : Option Nat) : Option Nat :=
  match p with
  | none => head_ptr ps
  | some q =>
    match next_ptr ps q with
    | none => head_ptr ps
    | some r => some r

/-- The exact number of pebbles in the regular pits `0..NPITS-1` of a board. -/
def regular_sum (b : Pits) : Int :=
  ((List.range NPITS).map (fun i => b.get i)).sum

/-- The inner `for` loop of `compute_average_pebbles` (lines 183-185) on one
board: `npebbles += p->pits[i]` for each regular pit, in `int` arithmetic. -/
def add_regular (npebbles : Int) (b : Pits) : Int :=
  (List.range NPITS).foldl (fun acc i => int_wrap (acc + b.get i)) npebbles

/-- Function `compute_average_pebbles` (lines 172-188); `npebbles` is an `int`
that the two loops add to, and `/` of C truncates toward zero, which is
`Int.tdiv`. -/
def compute_average_pebbles (ps : List player) : Int :=
  if ps = [] then NPEBBLES
  else
    let nplayers : Int := ps.length
    let npebbles : Int := ps.foldl (fun acc p => add_regular acc p.pits) 0
    Int.tdiv (Int.tdiv (int_wrap (npebbles - 1)) nplayers) NPITS + 1

/-- The body of the `for (p ...)` loop of `game_is_over`: is the row of regular
pits all empty. -/
def is_all_empty (b : Pits) : Bool :=
  (List.range NPITS).all (fun i => b.get i == 0)

/-- Function `game_is_over` (lines 191-210). -/
def game_is_over (ps : List player) : Bool :=
  if ps = [] then false else ps.any (fun p => is_all_empty p.pits)

/-- Function `broadcast` (lines 212-221). -/
def broadcast (ps : List player) (s : List Char) : List Send :=
  (ps.filter (fun p => p.name ≠ [])).flatMap (fun p => send_all p.fd s)

/-- Function `broadcast_except` (lines 558-567). -/
def broadcast_except (ps : List player) (s : List Char) (fd : Int) : List Send :=
  (ps.filter (fun p => fd ≠ p.fd ∧ p.name ≠ [])).flatMap (fun p => send_all p.fd s)

/-- The text of one status line and the value of the local `len` after it:
the body of the `for (p ...)` loop of `display_status` (lines 476-484) for a
named player, entered with the current value of `len`. -/
def status_line (len : Int) (p : player) : List Char × Int :=
  let msg0 := snprintf len (p.name ++ ": ".toList)
  let len0 : Int := (MAXMESSAGE : Int) - msg0.length
  let r := (List.range NPITS).foldl
    (fun (acc : List Char × Int) (i : Nat) =>
      let msg := acc.1 ++ snprintf acc.2
        ("[".toList ++ fmt_d i ++ "]".toList ++ fmt_d (p.pits.get i) ++ " ".toList)
      (msg, (MAXMESSAGE : Int) - msg.length))
    (msg0, len0)
  (r.1 ++ snprintf r.2 ("[end pit]".toList ++ fmt_d (p.pits.get NPITS) ++ "\r\n".toList), r.2)

/-- The `for (p ...)` loop of `display_status` over the rest `rest` of the list,
entered with the current value of `len`; `all` is the whole list (for
`broadcast`). -/
def display_status_loop (all : List player) (fd : Int) : List player → Int → List Send
  | [], _ => []
  | p :: rest, len =>
    if p.name = [] then display_status_loop all fd rest len
    else
      let r := status_line len p
      (if fd = -1 then broadcast all r.1 else send_all fd r.1)
        ++ display_status_loop all fd rest r.2

/-- Function `display_status` (lines 465-493). -/
def display_status (ps : List player) (fd : Int) : List Send :=
  display_status_loop ps fd ps MAXMESSAGE

/-- The `for` loop of `acc_player` (lines 332-334) on the zeroed array. -/
def fresh_pits (pebbles : Int) : Pits :=
  (List.range NPITS).foldl (fun (b : Pits) (i : Nat) => b.put i pebbles) Pits.zero

/-- Function `acc_player` (lines 307-338); `fd` is the value returned by
`accept`, and the process exits when that is `-1`. -/
def acc_player (s : Server) (fd : Int) : Option (Server × List Send) :=
  if fd = -1 then none
  else
    let out := send_all fd
      (snprintf MAXMESSAGE "Welcome to Mancala. What is your name?\r\n".toList)
    let pebbles := compute_average_pebbles s.playerlist
    let p : player := ⟨fd, [], fresh_pits pebbles, 0⟩
    some (⟨p :: s.playerlist, s.curr_p.map (fun q => q + 1)⟩, out)

/-- The `while` loop of `curr_player` (lines 378-384) from the node at position
`k` on, `ps` being the list from that node. -/
def first_named : List player → Nat → Option Nat
  | [], _ => none
  | p :: rest, k => if p.name ≠ [] then some k else first_named rest (k + 1)

/-- Function `curr_player` (lines 373-388). -/
def curr_player (s : Server) : Option Nat :=
  match s.curr_p with
  | none => first_named s.playerlist 0
  | some c => some c

/-- Function `del_player` (lines 390-427) for the node at position `p`. -/
def del_player (s : Server) (p : Nat) : Option (Server × List Send) :=
  match s.playerlist[p]? with
  | none => none
  | some pl =>
    let out :=
      if pl.name ≠ [] then
        broadcast_except s.playerlist
          (snprintf MAXMESSAGE (pl.name ++ " has left the game.\r\n".toList)) pl.fd
      else []
    -- if (p == curr_p) curr_p = p->next;
    let c1 := if s.curr_p = some p then next_ptr s.playerlist p else s.curr_p
    -- the node is unlinked; the nodes behind it move one position down
    let ps1 := s.playerlist.eraseIdx p
    let c2 := c1.map (fun q => if p < q then q - 1 else q)
    -- curr_p = curr_player();
    some (⟨ps1, curr_player ⟨ps1, c2⟩⟩, out)

/-- Function `add_player` (lines 429-463) for the node at position `p`. -/
def add_player (s : Server) (p : Nat) (name : List Char) : Option (Server × List Send) :=
  match s.playerlist[p]? with
  | none => none
  | some pl =>
    if name = [] then
      some (s, send_all pl.fd (snprintf MAXMESSAGE "Empty name, try again?\r\n".toList))
    else if s.playerlist.any (fun o => o.name.take MAXNAME = name.take MAXNAME) then
      some (s, send_all pl.fd (snprintf MAXMESSAGE "Duplicate name, try again?\r\n".toList))
    else
      -- strncpy(p->name, name, MAXNAME);
      let ps1 := s.playerlist.set p { pl with name := name.take MAXNAME }
      let out1 := broadcast ps1 (snprintf MAXMESSAGE (name ++ " has joined the game.\r\n".toList))
      let out2 := display_status ps1 pl.fd
      let c := curr_player ⟨ps1, s.curr_p⟩
      if c = some p then some (⟨ps1, c⟩, out1 ++ out2)
      else
        match c with
        | none => none
        | some q =>
          match ps1[q]? with
          | none => none
          | some cp =>
            some (⟨ps1, c⟩, out1 ++ out2 ++ send_all pl.fd
              (snprintf MAXMESSAGE ("now it's ".toList ++ cp.name ++ "'s turn.\r\n".toList)))

/-- The statement `p->pits[i] += 1` on the node at position `p`, in `int`
arithmetic. -/
def add_pebble (pl : player) (i : Int) : player :=
  { pl with pits := pl.pits.put i (int_wrap (pl.pits.get i + 1)) }

/-- The `while (pebbles != 0)` loop of `mov_player` (lines 529-541). The first
argument bounds the number of iterations that are run; the result is `none`
when the bound is reached before the loop leaves. The result holds the list and
the values of the locals `p` and `i` when the loop leaves. -/
def sow_loop : Nat → List player → Nat → Int → Int → Int → Option (List player × Nat × Int)
  | 0, _, _, _, _, _ => none
  | fuel + 1, ps, p, i, imax, pebbles =>
    if pebbles = 0 then some (ps, p, i)
    else if i < imax then
      match ps[p]? with
      | none => none
      | some pl => sow_loop fuel (ps.set p (add_pebble pl (i + 1))) p (i + 1) imax (pebbles - 1)
    else
      match next_player ps (some p) with
      | none => none
      | some q => sow_loop fuel ps q (-1) ((NPITS : Int) - 1) pebbles

/-- Lines 524-541 of `mov_player` for an accepted move of pit `i` by the node
at position `p`, whose record is `pl`: clear `prompted`, empty the pit, sow.
Each pebble takes at most two iterations of the loop (one change of row, one
drop), so `2 * pebbles + 1` iterations are enough whenever the loop ends. -/
def sow (ps : List player) (p : Nat) (pl : player) (i : Int) : Option (List player × Nat × Int) :=
  let pebbles := pl.pits.get i
  let ps0 := ps.set p { pl with prompted := 0, pits := pl.pits.put i 0 }
  sow_loop (2 * pebbles.toNat + 1) ps0 p i NPITS pebbles

/-- Function `mov_player` (lines 495-549) for the node at position `p`; `i` is
the value of the local `i` after line 497 (the parsed move). -/
def mov_player (s : Server) (p : Nat) (i : Int) : Option (Server × List Send) :=
  match s.playerlist[p]? with
  | none => none
  | some pl =>
    if s.curr_p ≠ some p then
      some (s, send_all pl.fd (snprintf MAXMESSAGE "It's not your move.\r\n".toList))
    else if i < 0 ∨ i ≥ NPITS ∨ pl.pits.get i = 0 then
      some (s, send_all pl.fd (snprintf MAXMESSAGE "Invalid move, try again?\r\n".toList))
    else
      let out1 := broadcast_except s.playerlist
        (snprintf MAXMESSAGE (pl.name ++ "'s move is ".toList ++ fmt_d i ++ "\r\n".toList)) pl.fd
      let bonus : Int := if pl.pits.get i = (NPITS : Int) - i then 1 else 0
      match sow s.playerlist p pl i with
      | none => none
      | some (ps1, _, _) =>
        let out2 := display_status ps1 (-1)
        some (⟨ps1, if bonus = 0 then next_player ps1 s.curr_p else s.curr_p⟩, out1 ++ out2)

/-- Function `pro_player` (lines 569-581) for the node at position `p`. -/
def pro_player (s : Server) (p : Nat) : Option (Server × List Send) :=
  match s.playerlist[p]? with
  | none => none
  | some pl =>
    let ps1 := s.playerlist.set p { pl with prompted := 1 }
    some (⟨ps1, s.curr_p⟩,
      broadcast_except ps1
        (snprintf MAXMESSAGE ("It is ".toList ++ pl.name ++ "'s move.\r\n".toList)) pl.fd
      ++ send_all pl.fd (snprintf MAXMESSAGE "Your move?\r\n".toList))

/-- The write set built by `fill_sel_lst` (lines 288-291): the current player,
when it has a name and has not been prompted. -/
def write_interest (s : Server) : Option Nat :=
  match s.curr_p with
  | none => none
  | some c =>
    match s.playerlist[c]? with
    | none => none
    | some pl => if pl.name ≠ [] ∧ pl.prompted = 0 then some c else none

/-- The states the server can be in: from the initial state, `main` runs
`acc_player`, runs `chk_player` on a node of the list (which, lines 340-371,
ends in `del_player`, in `add_player` when the node has no name, or in
`mov_player` when it has one), and runs `pro_player` on the current player
when `fill_sel_lst` asked for it. -/
inductive Reachable : Server → Prop
  | init : Reachable Server.init
  | acc {s s1 : Server} {out : List Send} (fd : Int) :
      Reachable s → acc_player s fd = some (s1, out) → Reachable s1
  | add {s s1 : Server} {out : List Send} (p : Nat) (pl : player) (name : List Char) :
      Reachable s → s.playerlist[p]? = some pl → pl.name = [] →
      add_player s p name = some (s1, out) → Reachable s1
  | mov {s s1 : Server} {out : List Send} (p : Nat) (pl : player) (i : Int) :
      Reachable s → s.playerlist[p]? = some pl → pl.name ≠ [] →
      mov_player s p i = some (s1, out) → Reachable s1
  | del {s s1 : Server} {out : List Send} (p : Nat) :
      Reachable s → del_player s p = some (s1, out) → Reachable s1
  | pro {s s1 : Server} {out : List Send} (p : Nat) :
      Reachable s → write_interest s = some p →
      pro_player s p = some (s1, out) → Reachable s1

/-- Sum of all the cells of all the boards (regular pits and end pits). -/
def total_pebbles (ps : List player) : Int :=
  (ps.map (fun p => p.pits.val.sum)).sum

/-- What the sowing loop never writes: descriptor, name and `prompted` flag. -/
def ident (p : player) : Int × List Char × Int := (p.fd, p.name, p.prompted)

/-- The board of a session accepted into an empty game: `NPEBBLES` in every
regular pit, an empty end pit. -/
def opening_pits : Pits := ⟨[4, 4, 4, 4, 4, 4, 0], rfl⟩

/-- A registered session on descriptor 4 with the opening board. -/
def alice : player := ⟨4, "alice".toList, opening_pits, 0⟩

/-- A registered session on descriptor 5 with the opening board. -/
def bob : player := ⟨5, "bob".toList, opening_pits, 0⟩

/-- Two registered sessions with opening boards; the one accepted first (the
last of the list) is to move. -/
def two_opening : Server := ⟨[bob, alice], some 1⟩

/-- One registered session with the opening board, which is to move. -/
def solo : Server := ⟨[alice], some 0⟩

/-- A registered session on descriptor 4 with 1 pebble in pit 0 and `INT_MAX`
pebbles in pit 1. -/
def full_pit : player := ⟨4, "alice".toList, ⟨[1, 2147483647, 4, 4, 4, 4, 0], rfl⟩, 0⟩

/-- Two registered sessions; the one that is to move holds `INT_MAX` pebbles in
pit 1. -/
def full_pit_game : Server := ⟨[bob, full_pit], some 1⟩

/-- A registered session on descriptor 4 with 1 pebble in pit 5 and `INT_MAX`
pebbles in its end pit. -/
def full_end : player := ⟨4, "alice".toList, ⟨[4, 4, 4, 4, 4, 1, 2147483647], rfl⟩, 0⟩

/-- Two registered sessions; the one that is to move holds `INT_MAX` pebbles in
its end pit. -/
def full_end_game : Server := ⟨[bob, full_end], some 1⟩

/-- Run an operation on the state that the operations before it produced. -/
def and_then (o : Option (Server × List Send)) (f : Server → Option (Server × List Send)) :
    Option (Server × List Send) :=
  o.bind (fun r => f r.1)

/-- Two connections are accepted (descriptors 4 and 5) and both register, the
first one first. -/
def two_register : Option (Server × List Send) :=
  and_then (and_then (and_then (acc_player Server.init 4) (fun s => acc_player s 5))
    (fun s => add_player s 1 "alice".toList)) (fun s => add_player s 0 "bob".toList)

/-- The regular pits of a board, cells `0..NPITS-1`. -/
def regular_row (p : player) : List Int := p.pits.val.take NPITS

/-- The value of `npebbles` when the loops of `compute_average_pebbles` end:
the pebbles in the regular pits of all sessions. -/
def regular_total (ps : List player) : Int :=
  (ps.map (fun p => regular_sum p.pits)).sum

/-- A session with non-negative pits whose regular pits hold more than
`INT_MAX` pebbles together. -/
def heavy_row : player := ⟨4, "alice".toList, ⟨[2147483647, 2, 0, 0, 0, 0, 0], rfl⟩, 0⟩

/-- The current-mover pointer is unset, or it points at a node of the list
whose name is not empty. -/
def mover_named (s : Server) : Bool :=
  match s.curr_p with
  | none => true
  | some c =>
    match s.playerlist[c]? with
    | none => false
    | some pl => decide (pl.name ≠ [])

/-- The state after descriptors 4 and 5 were accepted, the session on 4
registered as alice and sowed pit 0: the turn went to the session on 5, which
has no name yet. -/
def turn_of_unnamed : Server :=
  ⟨[⟨5, [], opening_pits, 0⟩, ⟨4, "alice".toList, ⟨[0, 5, 5, 5, 5, 4, 0], rfl⟩, 0⟩], some 0⟩

/-- The state after descriptors 4 and 5 were accepted, both sessions
registered (alice on 4, then bob on 5) and alice sowed pit 0. -/
def after_opening_move : Server :=
  ⟨[bob, ⟨4, "alice".toList, ⟨[0, 5, 5, 5, 5, 4, 0], rfl⟩, 0⟩], some 0⟩

/-- What holds of the two globals in every state the server reaches: `curr_p`
is `NULL` or a node of the list, it is `NULL` only when no node has a name, and
no stored name is longer than `MAXNAME`. -/
def well_formed (s : Server) : Prop :=
  (∀ c, s.curr_p = some c → c < s.playerlist.length) ∧
  (s.curr_p = none → ∀ q ∈ s.playerlist, q.name = []) ∧
  (∀ q ∈ s.playerlist, q.name.length ≤ MAXNAME)

/-- The pointer `r` is the first session of `ps` that has a name, from the
head of the list, or it is unset and no session of `ps` has a name. -/
def first_registered (ps : List player) (r : Option Nat) : Prop :=
  match r with
  | none => ∀ q ∈ ps, q.name = []
  | some c =>
    (∃ pl, ps[c]? = some pl ∧ pl.name ≠ []) ∧
    ∀ (j : Nat) (q : player), j < c → ps[j]? = some q → q.name = []

/-- The state after descriptors 4 and 5 were accepted and the session on 5
registered as bob: bob is to move, the session on 4 has no name. -/
def bob_and_unnamed : Server := ⟨[bob, ⟨4, [], opening_pits, 0⟩], some 0⟩

/-- The state after descriptors 4 and 5 were accepted and the session on 4
registered as alice: alice, the last of the list, is to move, the session on 5
has no name. -/
def unnamed_and_alice : Server := ⟨[⟨5, [], opening_pits, 0⟩, alice], some 1⟩

/-- The value `p->pits[c]` of the node at position `q` (0 when there is no such
node). -/
def pit_of (ps : List player) (q : Nat) (c : Int) : Int :=
  match ps[q]? with
  | some pl => pl.pits.get c
  | none => 0

/-- The closed form for a move of pit `i` by the session at position `m` in a
registry of `n` sessions: pebble `j` (counted from 1) lands in pit `i + j` of
the mover while `j <= NPITS - i`, and otherwise, with
`t = j - (NPITS - i) - 1`, in pit `t mod NPITS` of the session at position
`(m + 1 + t div NPITS) mod n`. The result is the pair (session, pit). -/
def landing (n m i j : Nat) : Nat × Nat :=
  if j ≤ NPITS - i then (m, i + j)
  else ((m + 1 + (j - (NPITS - i) - 1) / NPITS) % n, (j - (NPITS - i) - 1) % NPITS)

/-- The number of pebbles `j` in `1..k` that land in pit `c` of the session at
position `q`, by the closed form. -/
def landed (n m i k q c : Nat) : Nat :=
  (List.range k).countP (fun j => landing n m i (j + 1) = (q, c))

/-- A walk over rows of regular pits only: the pit reached `j` steps after
`u` pits of the row of the session at position `p` were passed. -/
def row_walk (n p u j : Nat) : Nat × Nat :=
  ((p + (u + j) / NPITS) % n, (u + j) % NPITS)

/-- The C library test `isspace` in the "C" locale. -/
def isspace (c : Char) : Bool :=
  c = ' ' || c = '\t' || c = '\n' || c = '\x0b' || c = '\x0c' || c = '\r'

/-- The value of the decimal digits at the head of the text, after the digits
already read (value `acc`). -/
def digits_value : List Char → Nat → Nat
  | [], acc => acc
  | c :: cs, acc => if c.isDigit then digits_value cs (10 * acc + (c.toNat - 48)) else acc

/-- The mathematical value of the optionally signed decimal integer at the
head of the text, after leading white space; 0 when there is none. -/
def leading_integer (s : List Char) : Int :=
  match s.dropWhile isspace with
  | '-' :: rest => -(digits_value rest 0 : Int)
  | '+' :: rest => (digits_value rest 0 : Int)
  | rest => (digits_value rest 0 : Int)

/-- The largest `long`, for a 64-bit `long` (LP64). -/
def LONG_MAX : Int := 2 ^ 63 - 1

/-- The smallest `long`, for a 64-bit `long` (LP64). -/
def LONG_MIN : Int := -(2 ^ 63)

/-- The C library function `strtol(s, NULL, 10)`: the leading integer, clamped
to the range of `long`. -/
def strtol (s : List Char) : Int :=
  max LONG_MIN (min LONG_MAX (leading_integer s))

/-- The conversion of a `long` to the 32-bit `int` of `int i = strtol(...)`
(line 497): the low 32 bits, read as a signed number. -/
def int_of_long (v : Int) : Int :=
  (v + 2 ^ 31) % 2 ^ 32 - 2 ^ 31

/-- Function `mov_player` (lines 495-549) on the received line `mov`: line 497
parses it, the rest is `mov_player` on the parsed index. -/
def mov_player_line (s : Server) (p : Nat) (mov : List Char) : Option (Server × List Send) :=
  mov_player s p (int_of_long (strtol mov))

/-- The loop of lines 589-591 of `strtrim`, on the string read from its last
byte towards its first (the argument is the string reversed). The loop tests
`buf[len - 1]` without testing `len`: when every byte was white space it
reads `buf[-1]`, a byte before the buffer, and the result is `none`. -/
def strip_tail : List Char → Option (List Char)
  | [] => none
  | c :: rest => if isspace c then strip_tail rest else some (c :: rest)

/-- Function `strtrim` (lines 583-600) on the string held in `buf`; `none` when
it reads a byte outside the buffer. -/
def strtrim (buf : List Char) : Option (List Char) :=
  if buf = [] then some []
  else
    match strip_tail buf.reverse with
    | none => none
    | some t => some (t.reverse.dropWhile isspace)

/-- What a call of `recv_all` comes to: it returns 0 (`closed`), returns -1
(`too_long`), returns 1 with a string in the buffer (`line`), reads a byte
outside the buffer in `strtrim` (`outside`), or waits in `recv` for bytes
that never come (`blocks`). -/
inductive Recv where
  | closed : Recv
  | too_long : Recv
  | line (text : List Char) : Recv
  | outside : Recv
  | blocks : Recv
deriving DecidableEq

/-- The string that a buffer holds: its bytes before the first NUL. -/
def cstring (bytes : List Char) : List Char :=
  bytes.takeWhile (fun c => c ≠ '\x00')

/-- The test of line 267: a line terminator. -/
def is_terminator (c : Char) : Bool :=
  c = '\n' || c = '\r'

/-- The `while` loop of `recv_all` (lines 248-274). `chunks` are the bytes that
the successive calls of `recv` find ready (an empty chunk: the peer has closed
the connection), `buf` the bytes stored so far, `room` the room left. A call of
`recv` stores at most `room` bytes. -/
def recv_loop : List (List Char) → List Char → Int → Recv
  | [], _, _ => Recv.blocks
  | chunk :: rest, buf, room =>
    let got := chunk.take room.toNat
    if got = [] then Recv.closed
    else if room - got.length ≤ 0 then Recv.too_long
    else if got.any is_terminator then
      match strtrim (cstring (buf ++ got.takeWhile (fun c => !is_terminator c))) with
      | none => Recv.outside
      | some t => Recv.line t
    else recv_loop rest (buf ++ got) (room - got.length)

/-- Function `recv_all` (lines 239-280) for a buffer of `len` bytes. -/
def recv_all (chunks : List (List Char)) (len : Nat) : Recv :=
  recv_loop chunks [] len

/-- Function `chk_player` (lines 340-371) for the node at position `p`, given
the bytes that `recv` finds ready on its descriptor. -/
def chk_player (s : Server) (p : Nat) (chunks : List (List Char)) :
    Option (Server × List Send) :=
  match s.playerlist[p]? with
  | none => none
  | some pl =>
    if pl.name = [] then
      match recv_all chunks (MAXNAME + 1) with
      | Recv.line msg => add_player s p msg
      | Recv.closed => del_player s p
      | Recv.too_long => del_player s p
      | _ => none
    else
      match recv_all chunks MAXMESSAGE with
      | Recv.line msg => mov_player_line s p msg
      | Recv.closed => del_player s p
      | Recv.too_long => del_player s p
      | _ => none

/-- A name of `MAXNAME` characters. -/
def longest_name : List Char := List.replicate MAXNAME 'a'

/-- The status line of a session as the specification gives it:
`<name>: [0]<p0> [1]<p1> ... [5]<p5> [end pit]<end>` and CR LF, with the
numbers in decimal. -/
def status_text (p : player) : List Char :=
  p.name ++ ": ".toList
    ++ (List.range NPITS).flatMap
        (fun i => "[".toList ++ fmt_d i ++ "]".toList ++ fmt_d (p.pits.get i) ++ " ".toList)
    ++ ("[end pit]".toList ++ fmt_d (p.pits.get NPITS) ++ "\r\n".toList)

/-- A registered session on descriptor 5 with a name of 60 characters. -/
def sixty : player := ⟨5, List.replicate 60 'b', opening_pits, 0⟩

/-- A registered session on descriptor 4 with a name of 40 characters. -/
def forty : player := ⟨4, List.replicate 40 'a', opening_pits, 0⟩

/-- The state after descriptors 4 and 5 were accepted and the sessions
registered with names of 40 and of 60 characters. -/
def long_names : Server := ⟨[sixty, forty], some 1⟩

/-- A string with all leading and trailing white space removed. -/
def trimmed (l : List Char) : List Char :=
  ((l.reverse.dropWhile isspace).reverse).dropWhile isspace

end Mancala

/-! ## Lemmas and theorems -/

namespace Mancala

theorem list_sum_set (l : List Int) (n : Nat) (v : Int) (h : n < l.length) :
    (l.set n v).sum = l.sum - l.getD n 0 + v := by
  induction l generalizing n with
  | nil => simp at h
  | cons a t ih =>
    cases n with
    | zero => simp; ring
    | succ m =>
      simp only [List.length_cons, Nat.succ_lt_succ_iff] at h
      simp [ih m h]
      ring

theorem Pits.sum_put (b : Pits) (i v : Int) (h0 : 0 ≤ i) (h1 : i ≤ NPITS) :
    (b.put i v).val.sum = b.val.sum - b.get i + v := by
  have hl : i.toNat < b.val.length := by
    rw [b.property]; omega
  simp only [Pits.put, Pits.get, h0, if_true]
  exact list_sum_set b.val i.toNat v hl

theorem total_pebbles_set (ps : List player) (p : Nat) (pl q : player)
    (h : ps[p]? = some pl) :
    total_pebbles (ps.set p q) = total_pebbles ps - pl.pits.val.sum + q.pits.val.sum := by
  have hp : p < ps.length := by
    rcases List.getElem?_eq_some.1 h with ⟨hp, _⟩
    exact hp
  unfold total_pebbles
  rw [List.map_set, list_sum_set _ _ _ (by simpa using hp)]
  have : (List.map (fun p => p.pits.val.sum) ps).getD p 0 = pl.pits.val.sum := by
    simp [List.getD, List.getElem?_map, h]
  rw [this]

theorem getElem?_lt {ps : List player} {p : Nat} {pl : player} (h : ps[p]? = some pl) :
    p < ps.length := by
  rcases List.getElem?_eq_some.1 h with ⟨hp, _⟩
  exact hp

theorem next_player_lt (ps : List player) (p : Nat) (hp : p < ps.length) :
    ∃ q, next_player ps (some p) = some q ∧ q < ps.length ∧
      q = if p + 1 < ps.length then p + 1 else 0 := by
  unfold next_player next_ptr head_ptr
  by_cases h : p + 1 < ps.length
  · simp [h]
  · have hne : ps ≠ [] := by
      intro h0; subst h0; simp at hp
    simp [h, hne]
    omega

theorem int_wrap_id (v : Int) (h0 : INT_MIN ≤ v) (h1 : v ≤ INT_MAX) : int_wrap v = v := by
  unfold INT_MIN at h0
  unfold INT_MAX at h1
  unfold int_wrap
  omega

theorem add_pebble_sum (pl : player) (i : Int) (h0 : 0 ≤ i) (h1 : i ≤ NPITS)
    (hlo : INT_MIN ≤ pl.pits.get i + 1) (hhi : pl.pits.get i + 1 ≤ INT_MAX) :
    (add_pebble pl i).pits.val.sum = pl.pits.val.sum + 1 := by
  simp only [add_pebble]
  rw [Pits.sum_put _ _ _ h0 h1, int_wrap_id _ hlo hhi]
  ring

/-- The sowing loop leaves when the pebbles in hand are not negative: the
bound `2 * pebbles + 1` on its iterations is never reached. -/
theorem sow_loop_some (fuel : Nat) :
    ∀ (ps : List player) (p : Nat) (i imax pebbles : Int),
      p < ps.length → 0 ≤ pebbles →
      2 * pebbles.toNat + 1 ≤ fuel + (if i < imax ∧ 0 < pebbles then 1 else 0) →
      ∃ r, sow_loop fuel ps p i imax pebbles = some r := by
  induction fuel with
  | zero =>
    intro ps p i imax pebbles _ hk hf
    exfalso
    split_ifs at hf with hc
    · omega
    · omega
  | succ n ih =>
    intro ps p i imax pebbles hp hk hf
    unfold sow_loop
    by_cases hz : pebbles = 0
    · simp [hz]
    · simp only [hz, if_false]
      have hpos : 0 < pebbles := by omega
      by_cases hlt : i < imax
      · simp only [hlt, if_true]
        have hget : ps[p]? = some ps[p] := List.getElem?_eq_getElem hp
        simp only [hget]
        apply ih
        · simpa using hp
        · omega
        · simp only [hlt, hpos, and_self, if_true] at hf
          split_ifs <;> omega
      · simp only [hlt, if_false]
        obtain ⟨q, hq, hql, _⟩ := next_player_lt ps p hp
        simp only [hq]
        apply ih _ _ _ _ _ hql hk
        have : ((-1 : Int) < (NPITS : Int) - 1 ∧ 0 < pebbles) := by
          refine ⟨by simp [NPITS], hpos⟩
        simp only [this, and_self, if_true]
        simp only [hlt, false_and, if_false] at hf
        omega

/-- The bound on the iterations is not felt once the loop has left: a larger
bound gives the same result. -/
theorem sow_loop_mono (fuel : Nat) :
    ∀ (ps : List player) (p : Nat) (i imax pebbles : Int) (r : List player × Nat × Int),
      sow_loop fuel ps p i imax pebbles = some r →
      sow_loop (fuel + 1) ps p i imax pebbles = some r := by
  induction fuel with
  | zero => intro ps p i imax pebbles r h; simp [sow_loop] at h
  | succ n ih =>
    intro ps p i imax pebbles r h
    unfold sow_loop at h ⊢
    by_cases hk : pebbles = 0
    · simpa [hk] using h
    · simp only [hk, if_false] at h ⊢
      by_cases hlt : i < imax
      · simp only [hlt, if_true] at h ⊢
        cases hget : ps[p]? with
        | none => simp [hget] at h
        | some pl =>
          simp only [hget] at h ⊢
          exact ih _ _ _ _ _ r h
      · simp only [hlt, if_false] at h ⊢
        cases hnext : next_player ps (some p) with
        | none => simp [hnext] at h
        | some q =>
          simp only [hnext] at h ⊢
          exact ih _ _ _ _ _ r h

/-- With a negative number of pebbles in hand the loop never leaves, whatever
the bound on its iterations. -/
theorem sow_loop_negative (fuel : Nat) :
    ∀ (ps : List player) (p : Nat) (i imax pebbles : Int),
      pebbles < 0 → sow_loop fuel ps p i imax pebbles = none := by
  induction fuel with
  | zero => intro ps p i imax pebbles _; simp [sow_loop]
  | succ n ih =>
    intro ps p i imax pebbles hk
    unfold sow_loop
    have hz : pebbles ≠ 0 := by omega
    simp only [hz, if_false]
    by_cases hlt : i < imax
    · simp only [hlt, if_true]
      cases hget : ps[p]? with
      | none => rfl
      | some pl => exact ih _ _ _ _ _ (by omega)
    · simp only [hlt, if_false]
      cases hnext : next_player ps (some p) with
      | none => rfl
      | some q => exact ih _ _ _ _ _ hk

theorem map_set_same {β : Type} (f : player → β) (ps : List player) (p : Nat) (pl q : player)
    (h : ps[p]? = some pl) (hq : f q = f pl) : (ps.set p q).map f = ps.map f := by
  apply List.ext_getElem?
  intro n
  by_cases hn : p = n
  · subst hn
    rw [List.getElem?_map, List.getElem?_map, List.getElem?_set, h]
    simp [getElem?_lt h, hq]
  · simp [List.getElem?_set, hn]

/-- The sowing loop changes no descriptor, name or `prompted` flag, and
keeps every node at its position. -/
theorem sow_loop_frame (fuel : Nat) :
    ∀ (ps : List player) (p : Nat) (i imax pebbles : Int) (r : List player × Nat × Int),
      sow_loop fuel ps p i imax pebbles = some r →
      r.1.map ident = ps.map ident := by
  induction fuel with
  | zero => intro ps p i imax pebbles r h; simp [sow_loop] at h
  | succ n ih =>
    intro ps p i imax pebbles r h
    unfold sow_loop at h
    by_cases hk : pebbles = 0
    · simp [hk] at h
      subst h; rfl
    · simp only [hk, if_false] at h
      by_cases hlt : i < imax
      · simp only [hlt, if_true] at h
        cases hget : ps[p]? with
        | none => simp [hget] at h
        | some pl =>
          simp only [hget] at h
          rw [ih _ _ _ _ _ r h]
          exact map_set_same ident ps p pl _ hget rfl
      · simp only [hlt, if_false] at h
        cases hnext : next_player ps (some p) with
        | none => simp [hnext] at h
        | some q =>
          simp only [hnext] at h
          exact ih _ _ _ _ _ r h

/-- Once the loop has changed row, `imax` is `NPITS - 1` and the loop never
leaves with `i` on an end pit. -/
theorem sow_loop_last_regular (fuel : Nat) :
    ∀ (ps : List player) (p : Nat) (i pebbles : Int) (r : List player × Nat × Int),
      i ≤ (NPITS : Int) - 1 →
      sow_loop fuel ps p i ((NPITS : Int) - 1) pebbles = some r →
      r.2.2 ≤ (NPITS : Int) - 1 := by
  induction fuel with
  | zero => intro ps p i pebbles r _ h; simp [sow_loop] at h
  | succ n ih =>
    intro ps p i pebbles r hi h
    unfold sow_loop at h
    by_cases hk : pebbles = 0
    · simp [hk] at h
      subst h; exact hi
    · simp only [hk, if_false] at h
      by_cases hlt : i < (NPITS : Int) - 1
      · simp only [hlt, if_true] at h
        cases hget : ps[p]? with
        | none => simp [hget] at h
        | some pl =>
          simp only [hget] at h
          exact ih _ _ _ _ r (by omega) h
      · simp only [hlt, if_false] at h
        cases hnext : next_player ps (some p) with
        | none => simp [hnext] at h
        | some q =>
          simp only [hnext] at h
          exact ih _ _ _ _ r (by simp [NPITS]) h

/-- Started on the row of the mover with `imax = NPITS`, the loop leaves on the
end pit of that row exactly when the pebbles in hand are the `NPITS - i` that
reach it. -/
theorem sow_loop_last_first (fuel : Nat) :
    ∀ (ps : List player) (p : Nat) (i pebbles : Int) (r : List player × Nat × Int),
      i ≤ (NPITS : Int) →
      sow_loop fuel ps p i NPITS pebbles = some r →
      ((r.2.1 = p ∧ r.2.2 = (NPITS : Int)) ↔ pebbles = (NPITS : Int) - i) := by
  induction fuel with
  | zero => intro ps p i pebbles r _ h; simp [sow_loop] at h
  | succ n ih =>
    intro ps p i pebbles r hi h
    unfold sow_loop at h
    by_cases hk : pebbles = 0
    · simp [hk] at h
      subst h
      simp only [hk, true_and]
      constructor <;> intro h <;> omega
    · simp only [hk, if_false] at h
      by_cases hlt : i < (NPITS : Int)
      · simp only [hlt, if_true] at h
        cases hget : ps[p]? with
        | none => simp [hget] at h
        | some pl =>
          simp only [hget] at h
          rw [ih _ _ _ _ r (by omega) h]
          constructor <;> intro h <;> omega
      · simp only [hlt, if_false] at h
        cases hnext : next_player ps (some p) with
        | none => simp [hnext] at h
        | some q =>
          simp only [hnext] at h
          have := sow_loop_last_regular n ps q (-1) pebbles r (by simp [NPITS]) h
          constructor
          · rintro ⟨_, h2⟩; omega
          · intro h2; omega

/-- What `sow` does for an accepted move: it returns, keeps descriptors, names
and positions, clears the `prompted` flag of the mover, and leaves on the end
pit of the mover exactly for `NPITS - i` pebbles. -/
theorem sow_spec (ps : List player) (p : Nat) (pl : player) (i : Int)
    (hget : ps[p]? = some pl) (h1 : i < NPITS) (hk : 0 < pl.pits.get i) :
    ∃ r, sow ps p pl i = some r ∧
      r.1.map (fun q => (q.fd, q.name)) = ps.map (fun q => (q.fd, q.name)) ∧
      r.1.length = ps.length ∧
      (∃ q, r.1[p]? = some q ∧ q.prompted = 0) ∧
      ((r.2.1 = p ∧ r.2.2 = (NPITS : Int)) ↔ pl.pits.get i = (NPITS : Int) - i) := by
  have hp := getElem?_lt hget
  obtain ⟨r, hr⟩ := sow_loop_some (2 * (pl.pits.get i).toNat + 1)
    (ps.set p { pl with prompted := 0, pits := pl.pits.put i 0 }) p i NPITS (pl.pits.get i)
    (by simpa using hp) (le_of_lt hk) (by split_ifs <;> omega)
  have hframe := sow_loop_frame _ _ _ _ _ _ r hr
  have hlen : r.1.length = ps.length := by
    have := congrArg List.length hframe
    simpa using this
  refine ⟨r, hr, ?_, hlen, ?_, ?_⟩
  · have h2 : (r.1.map ident).map (fun t : Int × List Char × Int => (t.1, t.2.1))
        = ((ps.set p { pl with prompted := 0, pits := pl.pits.put i 0 }).map ident).map
            (fun t : Int × List Char × Int => (t.1, t.2.1)) := by rw [hframe]
    simp only [List.map_map] at h2
    rw [map_set_same ((fun t : Int × List Char × Int => (t.1, t.2.1)) ∘ ident) ps p pl
      { pl with prompted := 0, pits := pl.pits.put i 0 } hget rfl] at h2
    exact h2
  · have h2 := congrArg (fun l => l[p]?) hframe
    simp only [List.getElem?_map, List.getElem?_set, hp, if_true] at h2
    have hp2 : p < r.1.length := by omega
    refine ⟨r.1[p], List.getElem?_eq_getElem hp2, ?_⟩
    rw [List.getElem?_eq_getElem hp2] at h2
    simp [ident] at h2
    exact h2.2.2
  · exact sow_loop_last_first _ _ _ _ _ r (le_of_lt h1) hr

theorem send_short (fd : Int) (t : List Char) (h : t ≠ []) (hl : t.length < MAXMESSAGE) :
    send_all fd (snprintf MAXMESSAGE t) = [(fd, t)] := by
  have : snprintf MAXMESSAGE t = t := by
    unfold snprintf
    apply List.take_of_length_le
    omega
  rw [this]
  simp [send_all, h]

/-- An accepted move: `mov_player` installs the list that `sow` returns and
hands the turn over unless the bonus holds. -/
theorem mov_player_valid (s : Server) (p : Nat) (pl : player) (i : Int)
    (r : List player × Nat × Int)
    (hcur : s.curr_p = some p) (hget : s.playerlist[p]? = some pl)
    (h0 : 0 ≤ i) (h1 : i < NPITS) (hk : pl.pits.get i ≠ 0)
    (hs : sow s.playerlist p pl i = some r) :
    ∃ out, mov_player s p i = some
      (⟨r.1, if pl.pits.get i = (NPITS : Int) - i then some p
             else next_player r.1 (some p)⟩, out) := by
  unfold mov_player
  simp only [hget, hcur, hs]
  have hc : ¬ (i < 0 ∨ i ≥ (NPITS : Int) ∨ pl.pits.get i = 0) := by
    rintro (h | h | h)
    · omega
    · omega
    · exact hk h
  simp only [ne_eq, not_true_eq_false, if_false, hc]
  by_cases hb : pl.pits.get i = (NPITS : Int) - i
  · simp [hb]
  · simp [hb]

/-- C2. Rejected moves change nothing: when `p` is not the current mover, or
the pit index is outside `0..NPITS-1`, or the pit of `p` is empty,
`mov_player` returns the state it was given (boards, `prompted` flags, list
order and `curr_p`), and sends one retry text to the descriptor of `p`. -/
theorem mov_player_rejected (s : Server) (p : Nat) (pl : player) (i : Int)
    (hget : s.playerlist[p]? = some pl)
    (h : s.curr_p ≠ some p ∨ i < 0 ∨ (NPITS : Int) ≤ i ∨ pl.pits.get i = 0) :
    ∃ text, mov_player s p i = some (s, [(pl.fd, text)]) := by
  unfold mov_player
  simp only [hget]
  by_cases hc : s.curr_p ≠ some p
  · rw [if_pos hc]
    exact ⟨_, by rw [send_short _ _ (by decide) (by decide)]⟩
  · rw [if_neg hc]
    have hi : i < 0 ∨ i ≥ (NPITS : Int) ∨ pl.pits.get i = 0 := by
      rcases h with h | h | h | h
      · exact absurd h hc
      · exact Or.inl h
      · exact Or.inr (Or.inl h)
      · exact Or.inr (Or.inr h)
    rw [if_pos hi]
    exact ⟨_, by rw [send_short _ _ (by decide) (by decide)]⟩

theorem mov_player_rejected_witness :
    two_opening.playerlist[0]? = some bob ∧
    (two_opening.curr_p ≠ some 0 ∨ (3 : Int) < 0 ∨ (NPITS : Int) ≤ 3 ∨ bob.pits.get 3 = 0) ∧
    ∃ text, mov_player two_opening 0 3 = some (two_opening, [(bob.fd, text)]) :=
  ⟨rfl, Or.inl (by decide),
    mov_player_rejected two_opening 0 bob 3 rfl (Or.inl (by decide))⟩

/-- C4. Turn hand-over after a valid move of pit `i` holding `k` pebbles by
the mover at position `p`: every session keeps its position, descriptor and
name; if `k = NPITS - i` the current mover is still `p` and its `prompted` flag
is 0; otherwise the current mover is the session at the next position, the
first one when `p` is last, whether that session has a name or not. -/
theorem mov_player_turn (s : Server) (p : Nat) (pl : player) (i : Int)
    (hcur : s.curr_p = some p) (hget : s.playerlist[p]? = some pl)
    (h0 : 0 ≤ i) (h1 : i < NPITS) (hk : 0 < pl.pits.get i) :
    ∃ s1 out, mov_player s p i = some (s1, out) ∧
      s1.playerlist.map (fun q => (q.fd, q.name)) = s.playerlist.map (fun q => (q.fd, q.name)) ∧
      (pl.pits.get i = (NPITS : Int) - i →
        s1.curr_p = some p ∧ ∃ q, s1.playerlist[p]? = some q ∧ q.prompted = 0) ∧
      (pl.pits.get i ≠ (NPITS : Int) - i →
        s1.curr_p = some (if p + 1 < s.playerlist.length then p + 1 else 0)) := by
  obtain ⟨r, hr, hmap, hlen, hpr, _⟩ := sow_spec s.playerlist p pl i hget h1 hk
  obtain ⟨out, hout⟩ := mov_player_valid s p pl i r hcur hget h0 h1 (ne_of_gt hk) hr
  refine ⟨_, out, hout, hmap, ?_, ?_⟩
  · intro hb
    simp only [hb, if_true]
    exact ⟨trivial, hpr⟩
  · intro hb
    simp only [hb, if_false]
    obtain ⟨q, hq, _, hqe⟩ := next_player_lt r.1 p (by rw [hlen]; exact getElem?_lt hget)
    rw [hq, hqe, hlen]

theorem mov_player_turn_witness :
    two_opening.curr_p = some 1 ∧ two_opening.playerlist[1]? = some alice ∧
    (0 : Int) ≤ 2 ∧ (2 : Int) < NPITS ∧ 0 < alice.pits.get 2 ∧
    ∃ s1 out, mov_player two_opening 1 2 = some (s1, out) ∧
      s1.playerlist.map (fun q => (q.fd, q.name))
        = two_opening.playerlist.map (fun q => (q.fd, q.name)) ∧
      (alice.pits.get 2 = (NPITS : Int) - 2 →
        s1.curr_p = some 1 ∧ ∃ q, s1.playerlist[1]? = some q ∧ q.prompted = 0) ∧
      (alice.pits.get 2 ≠ (NPITS : Int) - 2 →
        s1.curr_p = some (if 1 + 1 < two_opening.playerlist.length then 1 + 1 else 0)) :=
  ⟨rfl, rfl, by decide, by decide, by decide,
    mov_player_turn two_opening 1 alice 2 rfl rfl (by decide) (by decide) (by decide)⟩

/-- C3 (as stated, refuted). After two sessions have registered, both boards
are `[4,4,4,4,4,4,0]`; when the mover sows pit 0 its four pebbles reach pits
1 to 4 only, so the mover's pits are `[0,5,5,5,5,4,0]` and not
`[0,5,5,5,5,5,1]`. -/
theorem opening_move_not_as_stated :
    two_register.map (fun x => x.1) = some two_opening ∧
    (mov_player two_opening 1 0).map
        (fun x => x.1.playerlist.map (fun q => q.pits.val))
      = some [[4, 4, 4, 4, 4, 4, 0], [0, 5, 5, 5, 5, 4, 0]] ∧
    (mov_player two_opening 1 0).map
        (fun x => x.1.playerlist.map (fun q => q.pits.val))
      ≠ some [[4, 4, 4, 4, 4, 4, 0], [0, 5, 5, 5, 5, 5, 1]] := by
  decide

/-- C3 (amended). In a registry of two sessions whose boards are both
`[4,4,4,4,4,4,0]`, when the current mover (either of the two) sows pit 0, the
mover's pits become `[0,5,5,5,5,4,0]`, the other board is unchanged, and the
current mover becomes the other session. -/
theorem opening_move (fa fb qa qb : Int) (na nb : List Char) :
    (mov_player ⟨[⟨fa, na, opening_pits, qa⟩, ⟨fb, nb, opening_pits, qb⟩], some 0⟩ 0 0).map
        (fun x => (x.1.playerlist.map (fun q => q.pits.val), x.1.curr_p))
      = some ([[0, 5, 5, 5, 5, 4, 0], [4, 4, 4, 4, 4, 4, 0]], some 1) ∧
    (mov_player ⟨[⟨fa, na, opening_pits, qa⟩, ⟨fb, nb, opening_pits, qb⟩], some 1⟩ 1 0).map
        (fun x => (x.1.playerlist.map (fun q => q.pits.val), x.1.curr_p))
      = some ([[4, 4, 4, 4, 4, 4, 0], [0, 5, 5, 5, 5, 4, 0]], some 0) := by
  constructor <;> rfl

/-- C5 (as stated, refuted). In a registry of one session the mover sows pit 0
holding 4 pebbles: the loop leaves on pit 4 of the mover, not on its end pit,
and the mover is still the current mover after `mov_player`. -/
theorem solo_keeps_turn_without_end_pit :
    (mov_player solo 0 0).map (fun x => x.1.curr_p) = some (some 0) ∧
    (sow solo.playerlist 0 alice 0).map (fun r => r.2) = some (0, 4) ∧
    ((4 : Int) ≠ NPITS) := by
  decide

/-- C5 (amended). For a valid move of pit `i` by the mover at position `p`,
the bonus test `k = NPITS - i` holds exactly when the sowing loop leaves with
its last pebble on the end pit of the mover; in a registry of at least two
sessions the mover is still the current mover after `mov_player` exactly in
that case, and in a registry of one session it is the current mover after
every valid move. -/
theorem mov_player_bonus_last (s : Server) (p : Nat) (pl : player) (i : Int)
    (hcur : s.curr_p = some p) (hget : s.playerlist[p]? = some pl)
    (h0 : 0 ≤ i) (h1 : i < NPITS) (hk : 0 < pl.pits.get i) :
    ∃ s1 out r, mov_player s p i = some (s1, out) ∧ sow s.playerlist p pl i = some r ∧
      s1.playerlist = r.1 ∧
      (pl.pits.get i = (NPITS : Int) - i ↔ (r.2.1 = p ∧ r.2.2 = (NPITS : Int))) ∧
      (2 ≤ s.playerlist.length →
        (s1.curr_p = some p ↔ (r.2.1 = p ∧ r.2.2 = (NPITS : Int)))) ∧
      (s.playerlist.length = 1 → s1.curr_p = some p) := by
  obtain ⟨r, hr, _, hlen, _, hlast⟩ := sow_spec s.playerlist p pl i hget h1 hk
  obtain ⟨out, hout⟩ := mov_player_valid s p pl i r hcur hget h0 h1 (ne_of_gt hk) hr
  have hp := getElem?_lt hget
  obtain ⟨q, hq, _, hqe⟩ := next_player_lt r.1 p (by rw [hlen]; exact hp)
  rw [hlen] at hqe
  refine ⟨_, out, r, hout, hr, rfl, hlast.symm, ?_, ?_⟩
  · intro h2
    rw [hlast]
    by_cases hb : pl.pits.get i = (NPITS : Int) - i
    · simp [hb]
    · simp only [hb, if_false, iff_false, hq, Option.some.injEq]
      rw [hqe]
      split_ifs <;> omega
  · intro h1
    by_cases hb : pl.pits.get i = (NPITS : Int) - i
    · simp [hb]
    · simp only [hb, if_false, hq, Option.some.injEq]
      rw [hqe]
      split_ifs <;> omega

theorem mov_player_bonus_last_witness :
    two_opening.curr_p = some 1 ∧ two_opening.playerlist[1]? = some alice ∧
    (0 : Int) ≤ 2 ∧ (2 : Int) < NPITS ∧ 0 < alice.pits.get 2 ∧
    ∃ s1 out r, mov_player two_opening 1 2 = some (s1, out) ∧
      sow two_opening.playerlist 1 alice 2 = some r ∧
      s1.playerlist = r.1 ∧
      (alice.pits.get 2 = (NPITS : Int) - 2 ↔ (r.2.1 = 1 ∧ r.2.2 = (NPITS : Int))) ∧
      (2 ≤ two_opening.playerlist.length →
        (s1.curr_p = some 1 ↔ (r.2.1 = 1 ∧ r.2.2 = (NPITS : Int)))) ∧
      (two_opening.playerlist.length = 1 → s1.curr_p = some 1) :=
  ⟨rfl, rfl, by decide, by decide, by decide,
    mov_player_bonus_last two_opening 1 alice 2 rfl rfl (by decide) (by decide) (by decide)⟩

theorem Pits.seven (b : Pits) :
    ∃ a0 a1 a2 a3 a4 a5 a6 : Int, b.val = [a0, a1, a2, a3, a4, a5, a6] := by
  obtain ⟨l, hl⟩ := b
  match l, hl with
  | [a0, a1, a2, a3, a4, a5, a6], _ => exact ⟨a0, a1, a2, a3, a4, a5, a6, rfl⟩

theorem is_all_empty_iff (b : Pits) :
    is_all_empty b = true ↔ ∀ i : Nat, i < NPITS → b.get i = 0 := by
  unfold is_all_empty
  rw [List.all_eq_true]
  constructor
  · intro h i hi
    have := h i (List.mem_range.2 hi)
    simpa using this
  · intro h i hi
    have := h i (List.mem_range.1 hi)
    simpa using this

theorem is_all_empty_row (p : player) :
    is_all_empty p.pits = (regular_row p).all (fun v => v == 0) := by
  obtain ⟨a0, a1, a2, a3, a4, a5, a6, h⟩ := Pits.seven p.pits
  simp [is_all_empty, regular_row, Pits.get, h, NPITS, List.range, List.range.loop]

/-- C6. Game-over predicate: `game_is_over` returns true exactly when some
session of the registry, registered or not, has all its regular pits
`0..NPITS-1` at zero; it returns false for the empty registry; and two
registries whose rows of regular pits agree give the same result, whatever
their end pits hold. -/
theorem game_is_over_iff (ps : List player) :
    (game_is_over ps = true ↔ ∃ p ∈ ps, ∀ i : Nat, i < NPITS → p.pits.get i = 0) ∧
    game_is_over [] = false ∧
    (∀ ps2 : List player, ps2.map regular_row = ps.map regular_row →
      game_is_over ps2 = game_is_over ps) := by
  refine ⟨?_, rfl, ?_⟩
  · unfold game_is_over
    by_cases h : ps = []
    · subst h; simp
    · simp only [h, if_false, List.any_eq_true, is_all_empty_iff]
  · intro ps2 h
    have hany : ∀ l : List player,
        l.any (fun p => is_all_empty p.pits)
          = (l.map regular_row).any (fun r => r.all (fun v => v == 0)) := by
      intro l
      induction l with
      | nil => rfl
      | cons a t ih => rw [List.any_cons, List.map_cons, List.any_cons, ih, is_all_empty_row]
    have hnil : ps2 = [] ↔ ps = [] := by
      have := congrArg List.length h
      simp only [List.length_map] at this
      rw [← List.length_eq_zero, ← List.length_eq_zero (l := ps), this]
    unfold game_is_over
    by_cases hp : ps = []
    · simp [hp, hnil.2 hp]
    · have hp2 : ps2 ≠ [] := fun h2 => hp (hnil.1 h2)
      simp only [hp, hp2, if_false, hany, h]

theorem game_is_over_iff_witness :
    [bob, alice].map regular_row = two_opening.playerlist.map regular_row ∧
    game_is_over [bob, alice] = game_is_over two_opening.playerlist :=
  ⟨rfl, (game_is_over_iff two_opening.playerlist).2.2 [bob, alice] rfl⟩

/-- C9. Rejected registration changes nothing: `add_player` with the empty
name, or with a name equal to the name of some registered session, returns the
state it was given (names, boards, `prompted` flags, list order and `curr_p`),
and its only output is one retry prompt sent to the descriptor of `p`. -/
theorem add_player_rejected (s : Server) (p : Nat) (pl : player) (name : List Char)
    (hget : s.playerlist[p]? = some pl)
    (h : name = [] ∨ ∃ o ∈ s.playerlist, o.name ≠ [] ∧ o.name = name) :
    ∃ text, text ∈ ["Empty name, try again?\r\n".toList, "Duplicate name, try again?\r\n".toList] ∧
      add_player s p name = some (s, [(pl.fd, text)]) := by
  unfold add_player
  simp only [hget]
  by_cases hn : name = []
  · rw [if_pos hn, send_short _ _ (by decide) (by decide)]
    exact ⟨_, by simp, rfl⟩
  · rw [if_neg hn]
    have hdup : s.playerlist.any (fun o => o.name.take MAXNAME = name.take MAXNAME) = true := by
      rcases h with h | ⟨o, ho, _, hname⟩
      · exact absurd h hn
      · rw [List.any_eq_true]
        exact ⟨o, ho, by simp [hname]⟩
    rw [if_pos hdup, send_short _ _ (by decide) (by decide)]
    exact ⟨_, by simp, rfl⟩

theorem add_player_rejected_witness :
    (⟨[⟨5, [], opening_pits, 0⟩, alice], some 1⟩ : Server).playerlist[0]?
      = some ⟨5, [], opening_pits, 0⟩ ∧
    ("alice".toList = [] ∨ ∃ o ∈ (⟨[⟨5, [], opening_pits, 0⟩, alice], some 1⟩ : Server).playerlist,
      o.name ≠ [] ∧ o.name = "alice".toList) ∧
    ∃ text, text ∈ ["Empty name, try again?\r\n".toList, "Duplicate name, try again?\r\n".toList] ∧
      add_player ⟨[⟨5, [], opening_pits, 0⟩, alice], some 1⟩ 0 "alice".toList
        = some (⟨[⟨5, [], opening_pits, 0⟩, alice], some 1⟩,
            [((⟨5, [], opening_pits, 0⟩ : player).fd, text)]) :=
  ⟨rfl, Or.inr ⟨alice, by simp, by decide, rfl⟩,
    add_player_rejected ⟨[⟨5, [], opening_pits, 0⟩, alice], some 1⟩ 0 ⟨5, [], opening_pits, 0⟩
      "alice".toList rfl (Or.inr ⟨alice, by simp, by decide, rfl⟩)⟩

theorem tdiv_round_up (T n : Int) (hT : 1 ≤ T) (hn : 1 ≤ n) :
    Int.tdiv (Int.tdiv (T - 1) n) (NPITS : Int) + 1
      = ⌈(T : ℚ) / ((n : ℚ) * (NPITS : ℚ))⌉ := by
  have h6 : ((NPITS : Nat) : Int) = 6 := rfl
  have h6q : ((NPITS : Nat) : ℚ) = 6 := by norm_num [NPITS]
  rw [h6, h6q]
  have hq1 : Int.tdiv (T - 1) n = (T - 1) / n := Int.tdiv_eq_ediv (by omega) (by omega)
  have hq1nn : 0 ≤ (T - 1) / n := Int.ediv_nonneg (by omega) (by omega)
  rw [hq1, Int.tdiv_eq_ediv hq1nn (by norm_num)]
  have a1 : (T - 1) / n * n ≤ T - 1 := Int.ediv_mul_le _ (by omega)
  have a2 : T - 1 < ((T - 1) / n + 1) * n := Int.lt_ediv_add_one_mul_self _ (by omega)
  have b1 : (T - 1) / n / 6 * 6 ≤ (T - 1) / n := Int.ediv_mul_le _ (by norm_num)
  have b2 : (T - 1) / n < ((T - 1) / n / 6 + 1) * 6 :=
    Int.lt_ediv_add_one_mul_self _ (by norm_num)
  set q1 := (T - 1) / n
  set q2 := q1 / 6
  have lo : q2 * (n * 6) < T := by nlinarith
  have hi : T ≤ (q2 + 1) * (n * 6) := by nlinarith
  symm
  rw [Int.ceil_eq_iff]
  have hpos : (0 : ℚ) < (n : ℚ) * 6 := by
    have : (1 : ℚ) ≤ (n : ℚ) := by exact_mod_cast hn
    linarith
  constructor
  · rw [lt_div_iff₀ hpos]
    have : ((q2 * (n * 6) : Int) : ℚ) < (T : ℚ) := by exact_mod_cast lo
    push_cast at this ⊢
    linarith
  · rw [div_le_iff₀ hpos]
    have : (T : ℚ) ≤ (((q2 + 1) * (n * 6) : Int) : ℚ) := by exact_mod_cast hi
    push_cast at this ⊢
    linarith

theorem int_wrap_add (a b : Int) : int_wrap (int_wrap a + b) = int_wrap (a + b) := by
  unfold int_wrap
  omega

/-- The inner loop of `compute_average_pebbles` adds the regular pits of one
board to `npebbles`, modulo the width of `int`. -/
theorem add_regular_wrap (a : Int) (b : Pits) :
    add_regular (int_wrap a) b = int_wrap (a + regular_sum b) := by
  simp only [add_regular, regular_sum, NPITS, List.range, List.range.loop, List.foldl,
    List.map, List.sum_cons, List.sum_nil, int_wrap_add]
  congr 1
  ring

/-- The two loops of `compute_average_pebbles` leave in `npebbles` the exact
total of the regular pits, modulo the width of `int`. -/
theorem npebbles_wrap (ps : List player) :
    ∀ a : Int, ps.foldl (fun acc p => add_regular acc p.pits) (int_wrap a)
      = int_wrap (a + regular_total ps) := by
  induction ps with
  | nil => intro a; simp [regular_total]
  | cons x t ih =>
    intro a
    rw [List.foldl_cons, add_regular_wrap, ih]
    congr 1
    simp only [regular_total, List.map_cons, List.sum_cons]
    ring

/-- A row of non-negative regular pits that is not all empty holds a pebble. -/
theorem regular_sum_pos (b : Pits) (hnn : ∀ c : Nat, c < NPITS → 0 ≤ b.get c)
    (he : is_all_empty b = false) : 1 ≤ regular_sum b := by
  have h0 := hnn 0 (by decide)
  have h1 := hnn 1 (by decide)
  have h2 := hnn 2 (by decide)
  have h3 := hnn 3 (by decide)
  have h4 := hnn 4 (by decide)
  have h5 := hnn 5 (by decide)
  simp only [is_all_empty, NPITS, List.range, List.range.loop, List.all_cons, List.all_nil,
    Bool.and_true, Bool.and_eq_false_imp, beq_iff_eq, beq_eq_false_iff_ne] at he
  simp only [regular_sum, NPITS, List.range, List.range.loop, List.map, List.sum_cons,
    List.sum_nil]
  by_contra hlt
  have e0 : b.get 0 = 0 := by omega
  have e1 : b.get 1 = 0 := by omega
  have e2 : b.get 2 = 0 := by omega
  have e3 : b.get 3 = 0 := by omega
  have e4 : b.get 4 = 0 := by omega
  have e5 : b.get 5 = 0 := by omega
  exact he e0 e1 e2 e3 e4 e5

/-- While the game is not over, every session of a registry with non-negative
pits holds a pebble in its regular pits. -/
theorem regular_total_ge (ps : List player)
    (hnn : ∀ p ∈ ps, ∀ c : Nat, c < NPITS → 0 ≤ p.pits.get c)
    (hg : ps.any (fun p => is_all_empty p.pits) = false) :
    (ps.length : Int) ≤ regular_total ps := by
  induction ps with
  | nil => simp [regular_total]
  | cons x t ih =>
    rw [List.any_cons, Bool.or_eq_false_iff] at hg
    have h1 := regular_sum_pos x.pits (hnn x (List.mem_cons_self _ _)) hg.1
    have h2 := ih (fun p hp => hnn p (List.mem_cons_of_mem _ hp)) hg.2
    simp only [regular_total, List.map_cons, List.sum_cons, List.length_cons] at h2 ⊢
    push_cast
    omega

/-- C10 (as stated, refuted). For the registry of one session with non-negative
pits whose regular pits hold `INT_MAX` and 2 pebbles, the game is not over and
`T = 2147483649`; the `int` sum of `compute_average_pebbles` wraps and the
function returns -357913940, while the ceiling of `T / (n * NPITS)` is
357913942. -/
theorem average_wraps_past_INT_MAX :
    (∀ c : Nat, c ≤ NPITS → 0 ≤ heavy_row.pits.get c) ∧
    game_is_over [heavy_row] = false ∧
    regular_total [heavy_row] = 2147483649 ∧
    compute_average_pebbles [heavy_row] = -357913940 ∧
    ⌈((regular_total [heavy_row] : Int) : ℚ)
        / ((([heavy_row].length : Nat) : ℚ) * (NPITS : ℚ))⌉ = 357913942 ∧
    compute_average_pebbles [heavy_row]
      ≠ ⌈((regular_total [heavy_row] : Int) : ℚ)
          / ((([heavy_row].length : Nat) : ℚ) * (NPITS : ℚ))⌉ := by
  have h0 : regular_total [heavy_row] = 2147483649 := by decide
  have h1 : compute_average_pebbles [heavy_row] = -357913940 := by decide
  have h2 : ⌈((regular_total [heavy_row] : Int) : ℚ)
      / ((([heavy_row].length : Nat) : ℚ) * (NPITS : ℚ))⌉ = 357913942 := by
    rw [h0, Int.ceil_eq_iff]
    norm_num [NPITS]
  refine ⟨by decide, by decide, h0, h1, h2, ?_⟩
  rw [h1, h2]
  decide

/-- C10 (amended). Initial stock: for the empty registry
`compute_average_pebbles` returns `NPEBBLES`; for a non-empty registry of `n`
sessions whose regular pits hold `T` pebbles in total, with `1 <= T` and
`T <= INT_MAX`, it returns the ceiling of `T / (n * NPITS)`, and for `T = 0` it
returns 1; in a non-empty registry with non-negative pits where the game is
not over, `n <= T`; `acc_player` fills each regular pit of the new session with
the value returned and its end pit with 0. -/
theorem compute_average_pebbles_spec (s : Server) (fd : Int) (hfd : fd ≠ -1) :
    (s.playerlist = [] → compute_average_pebbles s.playerlist = NPEBBLES) ∧
    (s.playerlist ≠ [] → 1 ≤ regular_total s.playerlist →
      regular_total s.playerlist ≤ INT_MAX →
      compute_average_pebbles s.playerlist
        = ⌈((regular_total s.playerlist : Int) : ℚ)
            / (((s.playerlist.length : Nat) : ℚ) * (NPITS : ℚ))⌉) ∧
    (s.playerlist ≠ [] → regular_total s.playerlist = 0 →
      compute_average_pebbles s.playerlist = 1) ∧
    (s.playerlist ≠ [] →
      (∀ p ∈ s.playerlist, ∀ c : Nat, c < NPITS → 0 ≤ p.pits.get c) →
      game_is_over s.playerlist = false →
      1 ≤ regular_total s.playerlist ∧
        (s.playerlist.length : Int) ≤ regular_total s.playerlist) ∧
    ∃ out new, acc_player s fd = some (⟨new :: s.playerlist, s.curr_p.map (fun q => q + 1)⟩, out) ∧
      new.fd = fd ∧ new.name = [] ∧ new.prompted = 0 ∧
      new.pits.val =
        [compute_average_pebbles s.playerlist, compute_average_pebbles s.playerlist,
         compute_average_pebbles s.playerlist, compute_average_pebbles s.playerlist,
         compute_average_pebbles s.playerlist, compute_average_pebbles s.playerlist, 0] := by
  have hfold : s.playerlist.foldl (fun acc p => add_regular acc p.pits) 0
      = int_wrap (regular_total s.playerlist) := by
    have := npebbles_wrap s.playerlist 0
    rw [show int_wrap 0 = 0 by decide, zero_add] at this
    exact this
  refine ⟨?_, ?_, ?_, ?_, ?_⟩
  · intro h
    simp [compute_average_pebbles, h]
  · intro hne hT hmax
    have hn : (1 : Int) ≤ (s.playerlist.length : Int) := by
      have : 0 < s.playerlist.length := List.length_pos.2 hne
      omega
    have := tdiv_round_up (regular_total s.playerlist) s.playerlist.length hT hn
    rw [Int.cast_natCast] at this
    simp only [compute_average_pebbles, hne, if_false]
    unfold INT_MAX at hmax
    rw [hfold, int_wrap_id (regular_total s.playerlist) (by unfold INT_MIN; omega)
        (by unfold INT_MAX; omega),
      int_wrap_id _ (by unfold INT_MIN; omega) (by unfold INT_MAX; omega)]
    exact this
  · intro hne hT
    have hn : 0 < s.playerlist.length := List.length_pos.2 hne
    simp only [compute_average_pebbles, hne, if_false]
    rw [hfold, hT, show int_wrap (int_wrap 0 - 1) = 0 - 1 by decide]
    by_cases h1 : s.playerlist.length = 1
    · rw [h1]; decide
    · have h2 : (2 : Int) ≤ (s.playerlist.length : Int) := by omega
      have : Int.tdiv (0 - 1) (s.playerlist.length : Int) = 0 := by
        have e : (0 - 1 : Int) = -1 := by norm_num
        rw [e, Int.neg_tdiv, Int.tdiv_eq_ediv (by norm_num) (by omega),
          Int.ediv_eq_zero_of_lt (by norm_num) (by omega)]
        rfl
      rw [this]; decide
  · intro hne hnn hg
    have hn : 0 < s.playerlist.length := List.length_pos.2 hne
    simp only [game_is_over, hne, if_false] at hg
    have := regular_total_ge s.playerlist hnn hg
    omega
  · refine ⟨_, _, by simp only [acc_player, hfd, if_false]; rfl, rfl, rfl, rfl, rfl⟩

theorem compute_average_pebbles_spec_witness :
    (6 : Int) ≠ -1 ∧ two_opening.playerlist ≠ [] ∧ 1 ≤ regular_total two_opening.playerlist ∧
    regular_total two_opening.playerlist ≤ INT_MAX ∧
    compute_average_pebbles two_opening.playerlist
      = ⌈((regular_total two_opening.playerlist : Int) : ℚ)
          / (((two_opening.playerlist.length : Nat) : ℚ) * (NPITS : ℚ))⌉ :=
  ⟨by decide, by decide, by decide, by decide,
    (compute_average_pebbles_spec two_opening 6 (by decide)).2.1 (by decide) (by decide)
      (by decide)⟩

theorem first_named_spec (ps : List player) :
    ∀ (k c : Nat), first_named ps k = some c →
      k ≤ c ∧ ∃ pl, ps[c - k]? = some pl ∧ pl.name ≠ [] := by
  induction ps with
  | nil => intro k c h; simp [first_named] at h
  | cons a t ih =>
    intro k c h
    unfold first_named at h
    by_cases hn : a.name ≠ []
    · rw [if_pos hn] at h
      simp only [Option.some.injEq] at h
      subst h
      exact ⟨le_refl _, a, by simp, hn⟩
    · rw [if_neg hn] at h
      obtain ⟨hk, pl, hpl, hne⟩ := ih (k + 1) c h
      refine ⟨by omega, pl, ?_, hne⟩
      have : c - k = (c - (k + 1)) + 1 := by omega
      rw [this, List.getElem?_cons_succ]
      exact hpl

/-- What `acc_player` returns. -/
theorem acc_player_inv {s s1 : Server} {fd : Int} {out : List Send}
    (h : acc_player s fd = some (s1, out)) :
    ∃ new : player, new.name = [] ∧
      s1 = ⟨new :: s.playerlist, s.curr_p.map (fun q => q + 1)⟩ := by
  unfold acc_player at h
  by_cases hfd : fd = -1
  · simp [hfd] at h
  · simp only [hfd, if_false, Option.some.injEq, Prod.mk.injEq] at h
    exact ⟨_, rfl, h.1.symm⟩

/-- What `add_player` returns: the state it was given (rejection), or the
state with the name stored and `curr_p` recomputed. -/
theorem add_player_inv {s s1 : Server} {p : Nat} {name : List Char} {out : List Send}
    (h : add_player s p name = some (s1, out)) :
    s1 = s ∨ ∃ pl, s.playerlist[p]? = some pl ∧ name ≠ [] ∧
      (∀ o ∈ s.playerlist, o.name.take MAXNAME ≠ name.take MAXNAME) ∧
      s1 = ⟨s.playerlist.set p { pl with name := name.take MAXNAME },
            curr_player ⟨s.playerlist.set p { pl with name := name.take MAXNAME }, s.curr_p⟩⟩ := by
  unfold add_player at h
  cases hget : s.playerlist[p]? with
  | none => simp [hget] at h
  | some pl =>
    simp only [hget] at h
    by_cases hn : name = []
    · rw [if_pos hn] at h
      simp only [Option.some.injEq, Prod.mk.injEq] at h
      exact Or.inl h.1.symm
    · rw [if_neg hn] at h
      by_cases hd : s.playerlist.any (fun o => o.name.take MAXNAME = name.take MAXNAME) = true
      · rw [if_pos hd] at h
        simp only [Option.some.injEq, Prod.mk.injEq] at h
        exact Or.inl h.1.symm
      · rw [if_neg hd] at h
        right
        refine ⟨pl, rfl, hn, ?_, ?_⟩
        · intro o ho heq
          apply hd
          rw [List.any_eq_true]
          exact ⟨o, ho, by simpa using heq⟩
        · split_ifs at h with hc
          · simp only [Option.some.injEq, Prod.mk.injEq] at h
            exact h.1.symm
          · split at h
            · simp at h
            · split at h
              · simp at h
              · simp only [Option.some.injEq, Prod.mk.injEq] at h
                rw [← h.1]

/-- What `mov_player` returns: the state it was given (rejection), or the
list sown by `sow` with the turn handed over unless the bonus holds. -/
theorem mov_player_inv {s s1 : Server} {p : Nat} {i : Int} {out : List Send}
    (h : mov_player s p i = some (s1, out)) :
    s1 = s ∨ ∃ pl r, s.playerlist[p]? = some pl ∧ s.curr_p = some p ∧
      sow s.playerlist p pl i = some r ∧
      s1 = ⟨r.1, if pl.pits.get i = (NPITS : Int) - i then some p
                 else next_player r.1 (some p)⟩ := by
  unfold mov_player at h
  cases hget : s.playerlist[p]? with
  | none => simp [hget] at h
  | some pl =>
    simp only [hget] at h
    by_cases hc : s.curr_p ≠ some p
    · rw [if_pos hc] at h
      simp only [Option.some.injEq, Prod.mk.injEq] at h
      exact Or.inl h.1.symm
    · rw [if_neg hc] at h
      have hcur : s.curr_p = some p := not_not.1 hc
      by_cases hi : i < 0 ∨ i ≥ (NPITS : Int) ∨ pl.pits.get i = 0
      · rw [if_pos hi] at h
        simp only [Option.some.injEq, Prod.mk.injEq] at h
        exact Or.inl h.1.symm
      · rw [if_neg hi] at h
        cases hs : sow s.playerlist p pl i with
        | none => simp [hs] at h
        | some r =>
          simp only [hs, Option.some.injEq, Prod.mk.injEq] at h
          right
          refine ⟨pl, r, rfl, hcur, hs, ?_⟩
          rw [← h.1, hcur]
          by_cases hb : pl.pits.get i = (NPITS : Int) - i
          · simp [hb]
          · simp [hb]

/-- What `del_player` returns. -/
theorem del_player_inv {s s1 : Server} {p : Nat} {out : List Send}
    (h : del_player s p = some (s1, out)) :
    p < s.playerlist.length ∧
    s1 = ⟨s.playerlist.eraseIdx p,
      curr_player ⟨s.playerlist.eraseIdx p,
        (if s.curr_p = some p then next_ptr s.playerlist p else s.curr_p).map
          (fun q => if p < q then q - 1 else q)⟩⟩ := by
  unfold del_player at h
  cases hget : s.playerlist[p]? with
  | none => simp [hget] at h
  | some pl =>
    simp only [hget, Option.some.injEq, Prod.mk.injEq] at h
    exact ⟨getElem?_lt hget, h.1.symm⟩

/-- What `pro_player` returns. -/
theorem pro_player_inv {s s1 : Server} {p : Nat} {out : List Send}
    (h : pro_player s p = some (s1, out)) :
    ∃ pl, s.playerlist[p]? = some pl ∧
      s1 = ⟨s.playerlist.set p { pl with prompted := 1 }, s.curr_p⟩ := by
  unfold pro_player at h
  cases hget : s.playerlist[p]? with
  | none => simp [hget] at h
  | some pl =>
    simp only [hget, Option.some.injEq, Prod.mk.injEq] at h
    exact ⟨pl, rfl, h.1.symm⟩

/-- The list that `sow` returns has the descriptors and names of the list it
was given, position by position. -/
theorem sow_names {ps : List player} {p : Nat} {pl : player} {i : Int}
    {r : List player × Nat × Int}
    (hget : ps[p]? = some pl) (h : sow ps p pl i = some r) :
    r.1.map (fun q => (q.fd, q.name)) = ps.map (fun q => (q.fd, q.name)) := by
  have hframe := sow_loop_frame _ _ _ _ _ _ r h
  have h2 : (r.1.map ident).map (fun t : Int × List Char × Int => (t.1, t.2.1))
      = ((ps.set p { pl with prompted := 0, pits := pl.pits.put i 0 }).map ident).map
          (fun t : Int × List Char × Int => (t.1, t.2.1)) := by rw [hframe]
  simp only [List.map_map] at h2
  rw [map_set_same ((fun t : Int × List Char × Int => (t.1, t.2.1)) ∘ ident) ps p pl
    { pl with prompted := 0, pits := pl.pits.put i 0 } hget rfl] at h2
  exact h2

theorem eq_some_of_map_fst {o : Option (Server × List Send)} {s1 : Server}
    (h : o.map Prod.fst = some s1) : ∃ out, o = some (s1, out) := by
  cases o with
  | none => simp at h
  | some r =>
    simp only [Option.map_some', Option.some.injEq] at h
    exact ⟨r.2, by rw [← h]⟩

theorem mover_named_iff (s : Server) :
    mover_named s = true ↔
      ∀ c, s.curr_p = some c → ∃ pl, s.playerlist[c]? = some pl ∧ pl.name ≠ [] := by
  unfold mover_named
  cases hc : s.curr_p with
  | none => simp
  | some c =>
    cases hg : s.playerlist[c]? with
    | none => simp [hg]
    | some pl => simp [hg]

theorem take_MAXNAME_ne_nil {name : List Char} (h : name ≠ []) : name.take MAXNAME ≠ [] := by
  cases name with
  | nil => exact absurd rfl h
  | cons a t => simp [MAXNAME]

/-- C7 (the code at the failing input). Two connections are accepted, the
first one registers and sows pit 0 of its opening board: in the state reached
the current-mover pointer is on the second session, whose name is empty, and
no session is asked to move. From an unset pointer `curr_player` passes over
that session and returns the registered one. -/
theorem unnamed_mover_reachable :
    Reachable turn_of_unnamed ∧ mover_named turn_of_unnamed = false ∧
    turn_of_unnamed.curr_p = some 0 ∧
    turn_of_unnamed.playerlist[0]?.map (fun q => q.name) = some [] ∧
    write_interest turn_of_unnamed = none ∧
    curr_player ⟨turn_of_unnamed.playerlist, none⟩ = some 1 := by
  refine ⟨?_, by decide, rfl, rfl, by decide, by decide⟩
  obtain ⟨o1, h1⟩ := eq_some_of_map_fst
    (by decide : (acc_player Server.init 4).map Prod.fst
      = some ⟨[⟨4, [], opening_pits, 0⟩], none⟩)
  obtain ⟨o2, h2⟩ := eq_some_of_map_fst
    (by decide : (acc_player ⟨[⟨4, [], opening_pits, 0⟩], none⟩ 5).map Prod.fst
      = some ⟨[⟨5, [], opening_pits, 0⟩, ⟨4, [], opening_pits, 0⟩], none⟩)
  obtain ⟨o3, h3⟩ := eq_some_of_map_fst
    (by decide : (add_player ⟨[⟨5, [], opening_pits, 0⟩, ⟨4, [], opening_pits, 0⟩], none⟩ 1
        "alice".toList).map Prod.fst
      = some ⟨[⟨5, [], opening_pits, 0⟩, alice], some 1⟩)
  obtain ⟨o4, h4⟩ := eq_some_of_map_fst
    (by decide : (mov_player ⟨[⟨5, [], opening_pits, 0⟩, alice], some 1⟩ 1 0).map Prod.fst
      = some turn_of_unnamed)
  exact Reachable.mov 1 alice 0
    (Reachable.add 1 ⟨4, [], opening_pits, 0⟩ "alice".toList
      (Reachable.acc 5 (Reachable.acc 4 Reachable.init h1) h2) rfl rfl h3)
    rfl (by decide) h4

theorem next_player_iterate (ps : List player) (p : Nat) (hp : p < ps.length) (j : Nat) :
    (next_player ps)^[j] (some p) = some ((p + j) % ps.length) := by
  induction j with
  | zero => simp [Nat.mod_eq_of_lt hp]
  | succ k ih =>
    rw [Function.iterate_succ_apply', ih]
    have hq : (p + k) % ps.length < ps.length := Nat.mod_lt _ (by omega)
    obtain ⟨q, hq1, _, hq2⟩ := next_player_lt ps ((p + k) % ps.length) hq
    rw [hq1, hq2]
    congr 1
    have e : (p + (k + 1)) % ps.length = ((p + k) % ps.length + 1) % ps.length := by
      rw [← Nat.add_assoc]
      exact (Nat.mod_add_mod (p + k) ps.length 1).symm
    rw [e]
    split_ifs with h
    · rw [Nat.mod_eq_of_lt h]
    · have : (p + k) % ps.length + 1 = ps.length := by omega
      rw [this, Nat.mod_self]

/-- C14. Turn order is circular: in a registry of `N >= 1` sessions, applying
`next_player` `N` times from the session at position `p` gives that session
again, and applying it `j` times for `0 < j < N` gives a different session. -/
theorem next_player_circular (ps : List player) (p : Nat) (hp : p < ps.length) :
    (next_player ps)^[ps.length] (some p) = some p ∧
    ∀ j, 0 < j → j < ps.length → (next_player ps)^[j] (some p) ≠ some p := by
  constructor
  · rw [next_player_iterate ps p hp, Nat.add_mod_right, Nat.mod_eq_of_lt hp]
  · intro j h0 hj
    rw [next_player_iterate ps p hp]
    intro h
    simp only [Option.some.injEq] at h
    by_cases hlt : p + j < ps.length
    · rw [Nat.mod_eq_of_lt hlt] at h
      omega
    · rw [Nat.mod_eq_sub_mod (by omega), Nat.mod_eq_of_lt (by omega)] at h
      omega

theorem next_player_circular_witness :
    1 < two_opening.playerlist.length ∧
    ((next_player two_opening.playerlist)^[two_opening.playerlist.length] (some 1) = some 1 ∧
      ∀ j, 0 < j → j < two_opening.playerlist.length →
        (next_player two_opening.playerlist)^[j] (some 1) ≠ some 1) :=
  ⟨by decide, next_player_circular two_opening.playerlist 1 (by decide)⟩

theorem first_named_none (ps : List player) :
    ∀ k : Nat, first_named ps k = none → ∀ q ∈ ps, q.name = [] := by
  induction ps with
  | nil => intro k _ q hq; simp at hq
  | cons a t ih =>
    intro k h q hq
    unfold first_named at h
    by_cases hn : a.name ≠ []
    · rw [if_pos hn] at h
      simp at h
    · rw [if_neg hn] at h
      rcases List.mem_cons.1 hq with rfl | hq
      · exact not_not.1 hn
      · exact ih (k + 1) h q hq

/-- The node that the loop of `curr_player` stops at is the first one with a
name: every node before it has none. -/
theorem first_named_first (ps : List player) :
    ∀ (k c : Nat), first_named ps k = some c →
      ∀ (j : Nat) (q : player), j < c - k → ps[j]? = some q → q.name = [] := by
  induction ps with
  | nil => intro k c h; simp [first_named] at h
  | cons a t ih =>
    intro k c h j q hj hq
    unfold first_named at h
    by_cases hn : a.name ≠ []
    · rw [if_pos hn] at h
      simp only [Option.some.injEq] at h
      omega
    · rw [if_neg hn] at h
      cases j with
      | zero =>
        simp only [List.getElem?_cons_zero, Option.some.injEq] at hq
        subst hq
        exact not_not.1 hn
      | succ j0 =>
        simp only [List.getElem?_cons_succ] at hq
        exact ih (k + 1) c h j0 q (by omega) hq

theorem mem_name_of_map_eq {l1 l2 : List player}
    (h : l1.map (fun q => (q.fd, q.name)) = l2.map (fun q => (q.fd, q.name)))
    {q : player} (hq : q ∈ l1) : ∃ q2 ∈ l2, q2.name = q.name := by
  have hm : (q.fd, q.name) ∈ l1.map (fun q => (q.fd, q.name)) := List.mem_map_of_mem _ hq
  rw [h, List.mem_map] at hm
  obtain ⟨q2, hq2, he⟩ := hm
  simp only [Prod.mk.injEq] at he
  exact ⟨q2, hq2, he.2⟩

/-- The pointer left by `del_player` before it calls `curr_player` points at a
node of the shortened list. -/
theorem del_pointer_lt (ps : List player) (cur : Option Nat) (p : Nat)
    (hp : p < ps.length) (hcur : ∀ c, cur = some c → c < ps.length) :
    ∀ k, (if cur = some p then next_ptr ps p else cur).map
        (fun q => if p < q then q - 1 else q) = some k → k < ps.length - 1 := by
  intro k hk
  simp only [Option.map_eq_some'] at hk
  obtain ⟨c1, hc1, rfl⟩ := hk
  by_cases hc : cur = some p
  · rw [if_pos hc] at hc1
    unfold next_ptr at hc1
    split_ifs at hc1 with hlt
    simp only [Option.some.injEq] at hc1
    subst hc1
    split_ifs <;> omega
  · rw [if_neg hc] at hc1
    have hc1lt := hcur c1 hc1
    have hne : c1 ≠ p := fun he => hc (by rw [hc1, he])
    split_ifs <;> omega

/-- The pointer that `curr_player` returns is `NULL` or a node of the list, and
`NULL` only when no node has a name. -/
theorem curr_player_valid (s : Server) (h : ∀ c, s.curr_p = some c → c < s.playerlist.length) :
    (∀ c, curr_player s = some c → c < s.playerlist.length) ∧
    (curr_player s = none → ∀ q ∈ s.playerlist, q.name = []) := by
  unfold curr_player
  cases hcur : s.curr_p with
  | none =>
    constructor
    · intro c hc
      obtain ⟨_, pl, hpl, _⟩ := first_named_spec s.playerlist 0 c hc
      exact getElem?_lt (by simpa using hpl)
    · intro hn
      exact first_named_none s.playerlist 0 hn
  | some c0 =>
    constructor
    · intro c hc
      simp only [Option.some.injEq] at hc
      subst hc
      exact h c0 hcur
    · intro hn
      simp at hn

/-- Every state the server reaches is well formed. -/
theorem well_formed_of_reachable (s : Server) (h : Reachable s) : well_formed s := by
  induction h with
  | init =>
    refine ⟨?_, ?_, ?_⟩
    · intro c hc; simp [Server.init] at hc
    · intro _ q hq; simp [Server.init] at hq
    · intro q hq; simp [Server.init] at hq
  | acc fd _ hacc ih =>
    obtain ⟨new, hnew, rfl⟩ := acc_player_inv hacc
    obtain ⟨h1, h2, h3⟩ := ih
    refine ⟨?_, ?_, ?_⟩
    · intro c hc
      simp only [Option.map_eq_some'] at hc
      obtain ⟨c0, hc0, rfl⟩ := hc
      have := h1 c0 hc0
      simp only [List.length_cons]
      omega
    · intro hn q hq
      simp only [Option.map_eq_none'] at hn
      rcases List.mem_cons.1 hq with rfl | hq
      · exact hnew
      · exact h2 hn q hq
    · intro q hq
      rcases List.mem_cons.1 hq with rfl | hq
      · rw [hnew]; simp
      · exact h3 q hq
  | @add s0 s1 out p pl name _ hget _ hadd ih =>
    rcases add_player_inv hadd with rfl | ⟨pl2, hget2, hname, _, rfl⟩
    · exact ih
    · obtain ⟨h1, h2, h3⟩ := ih
      have hv := curr_player_valid
        ⟨s0.playerlist.set p { pl2 with name := name.take MAXNAME }, s0.curr_p⟩
        (by intro c hc; simpa using h1 c hc)
      refine ⟨hv.1, hv.2, ?_⟩
      intro q hq
      rcases List.mem_or_eq_of_mem_set hq with hq | rfl
      · exact h3 q hq
      · exact List.length_take_le _ _
  | @mov s0 s1 out p pl i _ hget _ hmov ih =>
    rcases mov_player_inv hmov with rfl | ⟨pl2, r, hget2, _, hsow, rfl⟩
    · exact ih
    · obtain ⟨h1, h2, h3⟩ := ih
      have hmap := sow_names hget2 hsow
      have hlen : r.1.length = s0.playerlist.length := by
        have := congrArg List.length hmap
        simpa using this
      have hp : p < r.1.length := by rw [hlen]; exact getElem?_lt hget2
      obtain ⟨q, hq, hql, _⟩ := next_player_lt r.1 p hp
      refine ⟨?_, ?_, ?_⟩
      · intro c hc
        simp only at hc ⊢
        split_ifs at hc
        · simp only [Option.some.injEq] at hc
          omega
        · rw [hq] at hc
          simp only [Option.some.injEq] at hc
          omega
      · intro hn
        simp only at hn
        split_ifs at hn
        rw [hq] at hn
        simp at hn
      · intro x hx
        obtain ⟨x2, hx2, he⟩ := mem_name_of_map_eq hmap hx
        rw [← he]
        exact h3 x2 hx2
  | @del s0 s1 out p _ hdel ih =>
    obtain ⟨hp, rfl⟩ := del_player_inv hdel
    obtain ⟨h1, h2, h3⟩ := ih
    have hv := curr_player_valid
      ⟨s0.playerlist.eraseIdx p,
        (if s0.curr_p = some p then next_ptr s0.playerlist p else s0.curr_p).map
          (fun q => if p < q then q - 1 else q)⟩
      (by
        intro c hc
        have := del_pointer_lt s0.playerlist s0.curr_p p hp h1 c hc
        simp only [List.length_eraseIdx, hp, if_true]
        exact this)
    exact ⟨hv.1, hv.2, fun q hq => h3 q (List.mem_of_mem_eraseIdx hq)⟩
  | @pro s0 s1 out p _ _ hpro ih =>
    obtain ⟨pl, hget, rfl⟩ := pro_player_inv hpro
    obtain ⟨h1, h2, h3⟩ := ih
    refine ⟨?_, ?_, ?_⟩
    · intro c hc
      simpa using h1 c hc
    · intro hn q hq
      rcases List.mem_or_eq_of_mem_set hq with hq | rfl
      · exact h2 hn q hq
      · exact h2 hn pl (List.getElem?_mem hget)
    · intro q hq
      rcases List.mem_or_eq_of_mem_set hq with hq | rfl
      · exact h3 q hq
      · exact h3 pl (List.getElem?_mem hget)

theorem reachable_turn_of_unnamed : Reachable turn_of_unnamed := by
  obtain ⟨o1, h1⟩ := eq_some_of_map_fst
    (by decide : (acc_player Server.init 4).map Prod.fst
      = some ⟨[⟨4, [], opening_pits, 0⟩], none⟩)
  obtain ⟨o2, h2⟩ := eq_some_of_map_fst
    (by decide : (acc_player ⟨[⟨4, [], opening_pits, 0⟩], none⟩ 5).map Prod.fst
      = some ⟨[⟨5, [], opening_pits, 0⟩, ⟨4, [], opening_pits, 0⟩], none⟩)
  obtain ⟨o3, h3⟩ := eq_some_of_map_fst
    (by decide : (add_player ⟨[⟨5, [], opening_pits, 0⟩, ⟨4, [], opening_pits, 0⟩], none⟩ 1
        "alice".toList).map Prod.fst
      = some ⟨[⟨5, [], opening_pits, 0⟩, alice], some 1⟩)
  obtain ⟨o4, h4⟩ := eq_some_of_map_fst
    (by decide : (mov_player ⟨[⟨5, [], opening_pits, 0⟩, alice], some 1⟩ 1 0).map Prod.fst
      = some turn_of_unnamed)
  exact Reachable.mov 1 alice 0
    (Reachable.add 1 ⟨4, [], opening_pits, 0⟩ "alice".toList
      (Reachable.acc 5 (Reachable.acc 4 Reachable.init h1) h2) rfl rfl h3)
    rfl (by decide) h4

theorem reachable_bob_and_unnamed : Reachable bob_and_unnamed := by
  obtain ⟨o1, h1⟩ := eq_some_of_map_fst
    (by decide : (acc_player Server.init 4).map Prod.fst
      = some ⟨[⟨4, [], opening_pits, 0⟩], none⟩)
  obtain ⟨o2, h2⟩ := eq_some_of_map_fst
    (by decide : (acc_player ⟨[⟨4, [], opening_pits, 0⟩], none⟩ 5).map Prod.fst
      = some ⟨[⟨5, [], opening_pits, 0⟩, ⟨4, [], opening_pits, 0⟩], none⟩)
  obtain ⟨o3, h3⟩ := eq_some_of_map_fst
    (by decide : (add_player ⟨[⟨5, [], opening_pits, 0⟩, ⟨4, [], opening_pits, 0⟩], none⟩ 0
        "bob".toList).map Prod.fst
      = some bob_and_unnamed)
  exact Reachable.add 0 ⟨5, [], opening_pits, 0⟩ "bob".toList
    (Reachable.acc 5 (Reachable.acc 4 Reachable.init h1) h2) rfl rfl h3

theorem del_player_some (s : Server) (p : Nat) (hp : p < s.playerlist.length) :
    ∃ out, del_player s p = some
      (⟨s.playerlist.eraseIdx p,
        curr_player ⟨s.playerlist.eraseIdx p,
          (if s.curr_p = some p then next_ptr s.playerlist p else s.curr_p).map
            (fun q => if p < q then q - 1 else q)⟩⟩, out) := by
  unfold del_player
  rw [List.getElem?_eq_getElem hp]
  exact ⟨_, rfl⟩

theorem first_registered_first_named (ps : List player) :
    first_registered ps (first_named ps 0) := by
  unfold first_registered
  cases h : first_named ps 0 with
  | none => exact first_named_none ps 0 h
  | some c =>
    obtain ⟨_, pl, hpl, hne⟩ := first_named_spec ps 0 c h
    exact ⟨⟨pl, by simpa using hpl, hne⟩,
      fun j q hj hq => first_named_first ps 0 c h j q (by omega) hq⟩

theorem reachable_unnamed_and_alice : Reachable unnamed_and_alice := by
  obtain ⟨o1, h1⟩ := eq_some_of_map_fst
    (by decide : (acc_player Server.init 4).map Prod.fst
      = some ⟨[⟨4, [], opening_pits, 0⟩], none⟩)
  obtain ⟨o2, h2⟩ := eq_some_of_map_fst
    (by decide : (acc_player ⟨[⟨4, [], opening_pits, 0⟩], none⟩ 5).map Prod.fst
      = some ⟨[⟨5, [], opening_pits, 0⟩, ⟨4, [], opening_pits, 0⟩], none⟩)
  obtain ⟨o3, h3⟩ := eq_some_of_map_fst
    (by decide : (add_player ⟨[⟨5, [], opening_pits, 0⟩, ⟨4, [], opening_pits, 0⟩], none⟩ 1
        "alice".toList).map Prod.fst
      = some unnamed_and_alice)
  exact Reachable.add 1 ⟨4, [], opening_pits, 0⟩ "alice".toList
    (Reachable.acc 5 (Reachable.acc 4 Reachable.init h1) h2) rfl rfl h3

/-- C17 (the code at the failing input). Descriptors 4 and 5 are accepted and
the session on 5 registers; it is the current mover and the head of the list.
When it disconnects no registered session remains, yet `curr_p` is not unset:
it is the session on 4, which has no name. When instead the session on 4
registers, it is the current mover and the last of the list; when it
disconnects, `curr_p` is unset. -/
theorem del_player_advances_to_unnamed :
    Reachable bob_and_unnamed ∧ bob_and_unnamed.curr_p = some 0 ∧
    (del_player bob_and_unnamed 0).map Prod.fst
      = some ⟨[⟨4, [], opening_pits, 0⟩], some 0⟩ ∧
    Reachable unnamed_and_alice ∧ unnamed_and_alice.curr_p = some 1 ∧
    (del_player unnamed_and_alice 1).map Prod.fst
      = some ⟨[⟨5, [], opening_pits, 0⟩], none⟩ :=
  ⟨reachable_bob_and_unnamed, rfl, by decide, reachable_unnamed_and_alice, rfl, by decide⟩

/-- What `del_player` computes: it unlinks the node at position `p` and keeps
the other nodes, their order and their boards. When `p` was `curr_p`, line 407
takes `p->next` with no test of its name, and `curr_player` searches for a
named node only when that is `NULL`; another node that was `curr_p` still
is. -/
theorem del_player_effect (s : Server) (p : Nat) (hp : p < s.playerlist.length) :
    ∃ s1 out, del_player s p = some (s1, out) ∧
      s1.playerlist = s.playerlist.eraseIdx p ∧
      (s.curr_p = some p → p + 1 < s.playerlist.length →
        s1.curr_p = some p ∧ s1.playerlist[p]? = s.playerlist[p + 1]?) ∧
      (s.curr_p = some p → p + 1 = s.playerlist.length →
        first_registered s1.playerlist s1.curr_p) ∧
      (∀ c, s.curr_p = some c → c ≠ p →
        s1.curr_p = some (if p < c then c - 1 else c) ∧
        s1.playerlist[if p < c then c - 1 else c]? = s.playerlist[c]?) ∧
      (s.curr_p = none → first_registered s1.playerlist s1.curr_p) := by
  obtain ⟨out, hout⟩ := del_player_some s p hp
  refine ⟨_, out, hout, rfl, ?_, ?_, ?_, ?_⟩
  · intro hcur hlt
    have hn : next_ptr s.playerlist p = some (p + 1) := by simp [next_ptr, hlt]
    simp only [hcur, if_true, hn, Option.map_some', curr_player]
    refine ⟨by simp, ?_⟩
    rw [List.getElem?_eraseIdx]
    simp
  · intro hcur hlast
    have hn : next_ptr s.playerlist p = none := by
      simp only [next_ptr]
      rw [if_neg (by omega)]
    simp only [hcur, if_true, hn, Option.map_none', curr_player]
    exact first_registered_first_named _
  · intro c hcur hne
    have hc : ¬ (some c = some p) := by
      intro h
      exact hne (Option.some.inj h)
    simp only [hcur, hc, if_false, Option.map_some', curr_player]
    refine ⟨trivial, ?_⟩
    rw [List.getElem?_eraseIdx]
    by_cases hpc : p < c
    · rw [if_pos hpc, if_neg (by omega)]
      congr 1
      omega
    · rw [if_neg hpc, if_pos (by omega)]
  · intro hcur
    have hc : ¬ (none = some p) := by simp
    simp only [hcur, hc, if_false, Option.map_none', curr_player]
    exact first_registered_first_named _

theorem first_named_set (ps : List player) :
    ∀ (p k : Nat) (x : player), (∀ q ∈ ps, q.name = []) → p < ps.length → x.name ≠ [] →
      first_named (ps.set p x) k = some (k + p) := by
  induction ps with
  | nil => intro p k x _ hp; simp at hp
  | cons a t ih =>
    intro p k x hall hp hx
    cases p with
    | zero => simp [first_named, hx]
    | succ p0 =>
      have ha : a.name = [] := hall a (List.mem_cons_self _ _)
      simp only [List.set_cons_succ, first_named, ha, ne_eq, not_true_eq_false, if_false]
      rw [ih p0 (k + 1) x (fun q hq => hall q (List.mem_cons_of_mem _ hq))
        (by simpa using hp) hx]
      congr 1
      omega

/-- A registration that passes both tests of `add_player`: the name is stored
and `curr_p` recomputed; the whose-turn notice depends on the new `curr_p`. -/
theorem add_player_accept (s : Server) (p : Nat) (pl : player) (name : List Char)
    (hget : s.playerlist[p]? = some pl) (hname : name ≠ [])
    (hfree : ∀ o ∈ s.playerlist, o.name.take MAXNAME ≠ name.take MAXNAME) :
    add_player s p name =
      (if curr_player ⟨s.playerlist.set p { pl with name := name.take MAXNAME }, s.curr_p⟩
          = some p then
        some (⟨s.playerlist.set p { pl with name := name.take MAXNAME },
            curr_player ⟨s.playerlist.set p { pl with name := name.take MAXNAME }, s.curr_p⟩⟩,
          broadcast (s.playerlist.set p { pl with name := name.take MAXNAME })
              (snprintf MAXMESSAGE (name ++ " has joined the game.\r\n".toList))
            ++ display_status (s.playerlist.set p { pl with name := name.take MAXNAME }) pl.fd)
      else
        match curr_player ⟨s.playerlist.set p { pl with name := name.take MAXNAME }, s.curr_p⟩ with
        | none => none
        | some q =>
          match (s.playerlist.set p { pl with name := name.take MAXNAME })[q]? with
          | none => none
          | some cp =>
            some (⟨s.playerlist.set p { pl with name := name.take MAXNAME },
                curr_player ⟨s.playerlist.set p { pl with name := name.take MAXNAME }, s.curr_p⟩⟩,
              broadcast (s.playerlist.set p { pl with name := name.take MAXNAME })
                  (snprintf MAXMESSAGE (name ++ " has joined the game.\r\n".toList))
                ++ display_status (s.playerlist.set p { pl with name := name.take MAXNAME }) pl.fd
                ++ send_all pl.fd (snprintf MAXMESSAGE
                    ("now it's ".toList ++ cp.name ++ "'s turn.\r\n".toList)))) := by
  have hd : ¬ (s.playerlist.any (fun o => o.name.take MAXNAME = name.take MAXNAME) = true) := by
    rw [List.any_eq_true]
    rintro ⟨o, ho, he⟩
    exact hfree o ho (by simpa using he)
  unfold add_player
  simp only [hget]
  rw [if_neg hname, if_neg hd]

/-- What `add_player` computes in a reachable state when a session `p`
registers with a non-empty name whose first `MAXNAME` characters are not the
name of any session: those characters become the name of `p` and nothing else
in the registry changes; when `curr_p` was `NULL` or `p` itself, `p` is
`curr_p` afterwards and the test of line 459 sends nothing more; when another
node was `curr_p`, it still is and its name is sent to `p`. -/
theorem add_player_effect (s : Server) (h : Reachable s) (p : Nat) (pl : player)
    (name : List Char) (hget : s.playerlist[p]? = some pl)
    (hname : name ≠ []) (hfree : ∀ o ∈ s.playerlist, o.name ≠ name.take MAXNAME) :
    ∃ s1 out, add_player s p name = some (s1, out) ∧
      s1.playerlist = s.playerlist.set p { pl with name := name.take MAXNAME } ∧
      (s.curr_p = none ∨ s.curr_p = some p →
        s1.curr_p = some p ∧
        out = broadcast s1.playerlist
            (snprintf MAXMESSAGE (name ++ " has joined the game.\r\n".toList))
          ++ display_status s1.playerlist pl.fd) ∧
      (∀ c, s.curr_p = some c → c ≠ p →
        ∃ cp, s.playerlist[c]? = some cp ∧ s1.curr_p = some c ∧
          out = broadcast s1.playerlist
              (snprintf MAXMESSAGE (name ++ " has joined the game.\r\n".toList))
            ++ display_status s1.playerlist pl.fd
            ++ [(pl.fd, "now it's ".toList ++ cp.name ++ "'s turn.\r\n".toList)]) := by
  obtain ⟨h1, h2, h3⟩ := well_formed_of_reachable s h
  have hp := getElem?_lt hget
  have hfree2 : ∀ o ∈ s.playerlist, o.name.take MAXNAME ≠ name.take MAXNAME := by
    intro o ho
    rw [List.take_of_length_le (h3 o ho)]
    exact hfree o ho
  have hacc := add_player_accept s p pl name hget hname hfree2
  have hx : ({ pl with name := name.take MAXNAME } : player).name ≠ [] :=
    take_MAXNAME_ne_nil hname
  cases hcur : s.curr_p with
  | none =>
    have hc : curr_player ⟨s.playerlist.set p { pl with name := name.take MAXNAME }, s.curr_p⟩
        = some p := by
      simp only [curr_player, hcur]
      rw [first_named_set s.playerlist p 0 _ (h2 hcur) hp hx]
      simp
    rw [if_pos hc, hc] at hacc
    refine ⟨_, _, hacc, rfl, fun _ => ⟨rfl, rfl⟩, ?_⟩
    intro c hc2
    simp at hc2
  | some c0 =>
    have hc : curr_player ⟨s.playerlist.set p { pl with name := name.take MAXNAME }, s.curr_p⟩
        = some c0 := by
      simp only [curr_player, hcur]
    by_cases hcp : c0 = p
    · subst hcp
      rw [if_pos hc, hc] at hacc
      refine ⟨_, _, hacc, rfl, fun _ => ⟨rfl, rfl⟩, ?_⟩
      intro c hc2 hne
      simp only [Option.some.injEq] at hc2
      exact absurd hc2.symm hne
    · have hc0 := h1 c0 hcur
      have hne : ¬ (some c0 = some p) := fun e => hcp (Option.some.inj e)
      have hlook : (s.playerlist.set p { pl with name := name.take MAXNAME })[c0]?
          = some s.playerlist[c0] := by
        rw [List.getElem?_set, if_neg (fun e => hcp e.symm)]
        exact List.getElem?_eq_getElem hc0
      rw [hc, if_neg hne] at hacc
      simp only [hlook] at hacc
      have hshort := h3 s.playerlist[c0] (List.getElem_mem hc0)
      rw [send_short pl.fd _ (by simp)
        (by simp only [List.length_append]
            have e1 : "now it's ".toList.length = 9 := by decide
            have e2 : "'s turn.\r\n".toList.length = 10 := by decide
            rw [e1, e2]
            simp only [MAXMESSAGE, MAXNAME] at hshort ⊢
            omega)] at hacc
      refine ⟨_, _, hacc, rfl, ?_, ?_⟩
      · rintro (hn | hs)
        · simp at hn
        · simp only [Option.some.injEq] at hs
          exact absurd hs hcp
      · intro c hc2 _
        simp only [Option.some.injEq] at hc2
        subst hc2
        exact ⟨s.playerlist[c0], List.getElem?_eq_getElem hc0, rfl, rfl⟩

/-- A registration in a reachable state whose current mover, if one is set,
has a name: the session `p`, which has no name yet, registers with a non-empty
name of at most `MAXNAME` characters that no session has. That name becomes
the name of `p` and nothing else in the registry changes; if no mover was set,
`p` is the current mover afterwards and is sent the join announcement and the
status report only; if a mover was set, the pointer is unchanged and `p` is
sent, after those, the whose-turn notice with the non-empty name of that
mover. -/
theorem add_player_named_mover (s : Server) (h : Reachable s) (hmv : mover_named s = true)
    (p : Nat) (pl : player) (name : List Char) (hget : s.playerlist[p]? = some pl)
    (hpl : pl.name = []) (hname : name ≠ []) (hlen : name.length ≤ MAXNAME)
    (hfree : ∀ o ∈ s.playerlist, o.name ≠ name) :
    ∃ s1 out, add_player s p name = some (s1, out) ∧
      s1.playerlist = s.playerlist.set p { pl with name := name } ∧
      (s.curr_p = none →
        s1.curr_p = some p ∧
        out = broadcast s1.playerlist
            (snprintf MAXMESSAGE (name ++ " has joined the game.\r\n".toList))
          ++ display_status s1.playerlist pl.fd) ∧
      (∀ c, s.curr_p = some c →
        ∃ cp, s.playerlist[c]? = some cp ∧ cp.name ≠ [] ∧ s1.curr_p = some c ∧
          out = broadcast s1.playerlist
              (snprintf MAXMESSAGE (name ++ " has joined the game.\r\n".toList))
            ++ display_status s1.playerlist pl.fd
            ++ [(pl.fd, "now it's ".toList ++ cp.name ++ "'s turn.\r\n".toList)]) := by
  have htake : name.take MAXNAME = name := List.take_of_length_le hlen
  obtain ⟨s1, out, hadd, hlist, hnone, hsome⟩ :=
    add_player_effect s h p pl name hget hname (by rw [htake]; exact hfree)
  rw [htake] at hlist
  refine ⟨s1, out, hadd, hlist, fun hc => hnone (Or.inl hc), ?_⟩
  intro c hc
  obtain ⟨pl0, hpl0, hne0⟩ := (mover_named_iff s).1 hmv c hc
  have hcp : c ≠ p := by
    intro e
    subst e
    rw [hget] at hpl0
    simp only [Option.some.injEq] at hpl0
    subst hpl0
    exact hne0 hpl
  obtain ⟨cp, hcp1, hcur1, hout⟩ := hsome c hc hcp
  have e : cp = pl0 := by
    rw [hcp1] at hpl0
    exact Option.some.inj hpl0
  exact ⟨cp, hcp1, by rw [e]; exact hne0, hcur1, hout⟩

set_option maxRecDepth 100000 in
/-- C18 (the code at the failing input). In the reachable state where the turn
went to the session on descriptor 5 before it registered, a mover is set; when
that session registers as bob it gets the join announcement and the status
report and no whose-turn notice. When instead a third connection, on
descriptor 6, is accepted in that state and registers as carol, the whose-turn
notice it is sent names nobody. -/
theorem registering_mover_gets_no_notice :
    Reachable turn_of_unnamed ∧ turn_of_unnamed.curr_p = some 0 ∧
    (add_player turn_of_unnamed 0 "bob".toList).map Prod.snd
      = some [(5, "bob has joined the game.\r\n".toList),
              (4, "bob has joined the game.\r\n".toList),
              (5, "bob: [0]4 [1]4 [2]4 [3]4 [4]4 [5]4 [end pit]0\r\n".toList),
              (5, "alice: [0]0 [1]5 [2]5 [3]5 [4]5 [5]4 [end pit]0\r\n".toList)] ∧
    (and_then (acc_player turn_of_unnamed 6) (fun s => add_player s 0 "carol".toList)).map
        (fun x => (x.1.curr_p, x.2.getLast?))
      = some (some 1, some (6, "now it's 's turn.\r\n".toList)) :=
  ⟨reachable_turn_of_unnamed, rfl, by decide, by decide⟩

theorem Pits.get_put (b : Pits) (i v c : Int) (h0 : 0 ≤ i) (h1 : i ≤ NPITS) :
    (b.put i v).get c = if c = i then v else b.get c := by
  have hl : i.toNat < b.val.length := by
    rw [b.property]; omega
  simp only [Pits.put, Pits.get, h0, if_true]
  by_cases hc : 0 ≤ c
  · simp only [hc, if_true, List.getD_eq_getElem?_getD, List.getElem?_set, hl]
    by_cases hci : c = i
    · subst hci
      simp
    · have : i.toNat ≠ c.toNat := by omega
      simp [this, hci]
  · have : c ≠ i := by omega
    simp [hc, this]

theorem pit_of_set (ps : List player) (p q : Nat) (x : player) (c : Int) (hp : p < ps.length) :
    pit_of (ps.set p x) q c = if q = p then x.pits.get c else pit_of ps q c := by
  unfold pit_of
  rw [List.getElem?_set]
  by_cases hq : q = p
  · subst hq
    simp [hp]
  · have : ¬ p = q := fun e => hq e.symm
    simp [hq, this]

/-- One pebble dropped in pit `c0` of the node at position `p` adds one to that
pit in `int` arithmetic and leaves every other pit of every node as it was. -/
theorem pit_of_add_pebble (ps : List player) (p q : Nat) (pl : player) (c0 c : Int)
    (hget : ps[p]? = some pl) (h0 : 0 ≤ c0) (h1 : c0 ≤ NPITS) :
    pit_of (ps.set p (add_pebble pl c0)) q c
      = if q = p ∧ c = c0 then int_wrap (pit_of ps q c + 1) else pit_of ps q c := by
  rw [pit_of_set _ _ _ _ _ (getElem?_lt hget)]
  by_cases hq : q = p
  · subst hq
    simp only [true_and, if_true, add_pebble, Pits.get_put _ _ _ _ h0 h1, pit_of, hget]
    by_cases hc : c = c0
    · subst hc
      rfl
    · rw [if_neg hc, if_neg hc]
  · simp [hq]

/-- One pebble dropped in a pit that holds an `int` value below `INT_MAX`
raises that pit by one, the total by one, and leaves every other pit of every
node as it was. -/
theorem add_pebble_step (ps : List player) (p : Nat) (c0 : Int) (hp : p < ps.length)
    (h0 : 0 ≤ c0) (h1 : c0 ≤ NPITS)
    (hlo : INT_MIN ≤ pit_of ps p c0) (hhi : pit_of ps p c0 + 1 ≤ INT_MAX) :
    total_pebbles (ps.set p (add_pebble ps[p] c0)) = total_pebbles ps + 1 ∧
    ∀ (q : Nat) (c : Int), pit_of (ps.set p (add_pebble ps[p] c0)) q c
      = pit_of ps q c + if q = p ∧ c = c0 then 1 else 0 := by
  have hget : ps[p]? = some ps[p] := List.getElem?_eq_getElem hp
  have hcell : pit_of ps p c0 = ps[p].pits.get c0 := by simp [pit_of, hget]
  rw [hcell] at hlo hhi
  constructor
  · rw [total_pebbles_set ps p ps[p] _ hget,
      add_pebble_sum ps[p] c0 h0 h1 (by unfold INT_MIN at *; omega) hhi]
    ring
  · intro q c
    rw [pit_of_add_pebble ps p q ps[p] c0 c hget h0 h1]
    by_cases hc : q = p ∧ c = c0
    · rw [if_pos hc, if_pos hc]
      obtain ⟨hq, hc⟩ := hc
      subst hq
      subst hc
      rw [hcell, int_wrap_id _ (by unfold INT_MIN at *; omega) hhi]
    · rw [if_neg hc, if_neg hc, add_zero]

theorem countP_range_succ_shift (f : Nat → Bool) (t : Nat) :
    (List.range (t + 1)).countP f
      = (if f 0 then 1 else 0) + (List.range t).countP (fun j => f (j + 1)) := by
  rw [List.range_succ_eq_map, List.countP_cons, List.countP_map]
  rw [Nat.add_comm]
  rfl

theorem row_walk_zero (n p u : Nat) (hp : p < n) (hu : u < NPITS) :
    row_walk n p u 0 = (p, u) := by
  simp only [row_walk, Nat.add_zero, Nat.div_eq_of_lt hu, Nat.mod_eq_of_lt hu,
    Nat.mod_eq_of_lt hp]

theorem row_walk_succ (n p u j : Nat) : row_walk n p u (j + 1) = row_walk n p (u + 1) j := by
  simp only [row_walk]
  rw [show u + (j + 1) = u + 1 + j by omega]

theorem row_walk_next (n p j : Nat) (hp : p < n) :
    row_walk n p NPITS j = row_walk n (if p + 1 < n then p + 1 else 0) 0 j := by
  have e1 : (NPITS + j) / NPITS = 1 + j / NPITS := by
    rw [Nat.add_div_left _ (by decide : 0 < NPITS)]
    omega
  have e2 : (NPITS + j) % NPITS = j % NPITS := Nat.add_mod_left _ _
  simp only [row_walk, Nat.zero_add, e1, e2]
  by_cases h : p + 1 < n
  · rw [if_pos h, Nat.add_assoc]
  · have h2 : p + 1 = n := by omega
    rw [if_neg h, ← Nat.add_assoc, h2, Nat.add_mod_left, Nat.zero_add]

/-- Once the loop has changed row (`imax = NPITS - 1`), the pebbles in hand go
one by one to the regular pits of the rows that follow, in list order and
wrapping to the head. While no pit is taken past `INT_MAX`, every pit ends with
its old value plus the number of steps of that walk that reach it, and the
total grows by the pebbles in hand. -/
theorem sow_loop_rows (fuel : Nat) :
    ∀ (ps : List player) (p : Nat) (i k : Int) (r : List player × Nat × Int),
      p < ps.length → -1 ≤ i → i ≤ (NPITS : Int) - 1 → 0 ≤ k →
      (∀ q, q < ps.length → ∀ c : Nat, c ≤ NPITS →
        INT_MIN ≤ pit_of ps q c ∧
        pit_of ps q c + ((List.range k.toNat).countP
          (fun j => row_walk ps.length p (i + 1).toNat j = (q, c)) : Nat) ≤ INT_MAX) →
      sow_loop fuel ps p i ((NPITS : Int) - 1) k = some r →
      total_pebbles r.1 = total_pebbles ps + k ∧
      ∀ (q c : Nat), pit_of r.1 q c = pit_of ps q c +
        ((List.range k.toNat).countP
          (fun j => row_walk ps.length p (i + 1).toNat j = (q, c)) : Nat) := by
  induction fuel with
  | zero => intro ps p i k r _ _ _ _ _ h; simp [sow_loop] at h
  | succ n ih =>
    intro ps p i k r hp hi0 hi1 hk hb h
    unfold sow_loop at h
    by_cases hz : k = 0
    · simp [hz] at h
      subst h
      simp [hz]
    · simp only [hz, if_false] at h
      have hkt : k.toNat = (k - 1).toNat + 1 := by omega
      by_cases hlt : i < (NPITS : Int) - 1
      · simp only [hlt, if_true] at h
        have hget : ps[p]? = some ps[p] := List.getElem?_eq_getElem hp
        simp only [hget] at h
        have hu : (i + 1).toNat < NPITS := by omega
        have hcast : (((i + 1).toNat : Nat) : Int) = i + 1 := by omega
        have e1 : (i + 1 + 1).toNat = (i + 1).toNat + 1 := by omega
        have hcount : ∀ q c : Nat,
            (List.range k.toNat).countP
              (fun j => decide (row_walk ps.length p (i + 1).toNat j = (q, c)))
            = (if q = p ∧ (c : Int) = i + 1 then 1 else 0)
              + (List.range (k - 1).toNat).countP
                  (fun j => decide (row_walk ps.length p (i + 1 + 1).toNat j = (q, c))) := by
          intro q c
          rw [hkt, countP_range_succ_shift]
          have e0 : (decide (row_walk ps.length p (i + 1).toNat 0 = (q, c)) = true)
              ↔ (q = p ∧ (c : Int) = i + 1) := by
            rw [row_walk_zero _ _ _ hp hu]
            simp only [decide_eq_true_eq, Prod.mk.injEq]
            constructor
            · rintro ⟨h1, h2⟩
              exact ⟨h1.symm, by omega⟩
            · rintro ⟨h1, h2⟩
              exact ⟨h1.symm, by omega⟩
          simp only [row_walk_succ, e1]
          by_cases hc : q = p ∧ (c : Int) = i + 1
          · rw [if_pos hc, if_pos (e0.2 hc)]
          · rw [if_neg hc, if_neg (fun h => hc (e0.1 h))]
        have hcell := hb p hp (i + 1).toNat (by omega)
        rw [hcount, hcast, if_pos ⟨rfl, rfl⟩] at hcell
        obtain ⟨htot, hstep⟩ := add_pebble_step ps p (i + 1) hp (by omega) (by omega)
          hcell.1 (by push_cast at hcell; omega)
        have hb2 : ∀ q, q < (ps.set p (add_pebble ps[p] (i + 1))).length →
            ∀ c : Nat, c ≤ NPITS →
            INT_MIN ≤ pit_of (ps.set p (add_pebble ps[p] (i + 1))) q c ∧
            pit_of (ps.set p (add_pebble ps[p] (i + 1))) q c
              + ((List.range (k - 1).toNat).countP
                  (fun j => row_walk (ps.set p (add_pebble ps[p] (i + 1))).length p
                    (i + 1 + 1).toNat j = (q, c)) : Nat) ≤ INT_MAX := by
          intro q hq c hc
          rw [List.length_set] at hq
          have hqc := hb q hq c hc
          rw [hcount] at hqc
          rw [hstep, List.length_set]
          by_cases hcond : q = p ∧ (c : Int) = i + 1
          · rw [if_pos hcond] at hqc ⊢
            push_cast at hqc
            omega
          · rw [if_neg hcond] at hqc ⊢
            push_cast at hqc
            omega
        obtain ⟨iht, ihp⟩ := ih _ _ _ _ r (by simpa using hp) (by omega) (by omega)
          (by omega) hb2 h
        refine ⟨by rw [iht, htot]; ring, ?_⟩
        intro q c
        rw [ihp q c, hstep, hcount, List.length_set]
        push_cast
        ring
      · simp only [hlt, if_false] at h
        obtain ⟨q1, hq1, hq1l, hq1e⟩ := next_player_lt ps p hp
        simp only [hq1] at h
        have e1 : (i + 1).toNat = NPITS := by omega
        have e2 : ((-1 : Int) + 1).toNat = 0 := by decide
        have hwalk : ∀ q c : Nat,
            (List.range k.toNat).countP
              (fun j => decide (row_walk ps.length p (i + 1).toNat j = (q, c)))
            = (List.range k.toNat).countP
              (fun j => decide (row_walk ps.length q1 ((-1 : Int) + 1).toNat j = (q, c))) := by
          intro q c
          rw [e1, e2, hq1e]
          simp only [row_walk_next _ _ _ hp]
        have hb2 : ∀ q, q < ps.length → ∀ c : Nat, c ≤ NPITS →
            INT_MIN ≤ pit_of ps q c ∧
            pit_of ps q c + ((List.range k.toNat).countP
              (fun j => row_walk ps.length q1 ((-1 : Int) + 1).toNat j = (q, c)) : Nat)
              ≤ INT_MAX := by
          intro q hq c hc
          have := hb q hq c hc
          rw [hwalk] at this
          exact this
        obtain ⟨iht, ihp⟩ := ih _ _ _ _ r hq1l (by omega) (by simp [NPITS]) hk hb2 h
        refine ⟨iht, ?_⟩
        intro q c
        rw [ihp q c, hwalk]

theorem landing_one (n m i : Nat) (hi : i < NPITS) : landing n m i 1 = (m, i + 1) := by
  unfold landing
  rw [if_pos (by omega)]

theorem landing_succ (n m i j : Nat) (hi : i < NPITS) :
    landing n m i (j + 1 + 1) = landing n m (i + 1) (j + 1) := by
  unfold landing
  by_cases h : j + 1 + 1 ≤ NPITS - i
  · rw [if_pos h, if_pos (by omega)]
    congr 1
    omega
  · rw [if_neg h, if_neg (by omega)]
    have e : j + 1 + 1 - (NPITS - i) - 1 = j + 1 - (NPITS - (i + 1)) - 1 := by omega
    rw [e]

theorem landing_after_end (n m j : Nat) :
    landing n m NPITS (j + 1) = row_walk n m NPITS j := by
  unfold landing row_walk
  rw [if_neg (by omega)]
  have e : j + 1 - (NPITS - NPITS) - 1 = j := by omega
  have e1 : (NPITS + j) / NPITS = 1 + j / NPITS := by
    rw [Nat.add_div_left _ (by decide : 0 < NPITS)]
    omega
  rw [e, e1, Nat.add_mod_left, Nat.add_assoc]

/-- From the pit of the mover on (`imax = NPITS`), the pebbles in hand go one
by one where the closed form says. While no pit is taken past `INT_MAX`, every
pit ends with its old value plus the number of pebbles that the closed form
sends to it, and the total grows by the pebbles in hand. -/
theorem sow_loop_first (fuel : Nat) :
    ∀ (ps : List player) (m : Nat) (i k : Int) (r : List player × Nat × Int),
      m < ps.length → 0 ≤ i → i ≤ (NPITS : Int) → 0 ≤ k →
      (∀ q, q < ps.length → ∀ c : Nat, c ≤ NPITS →
        INT_MIN ≤ pit_of ps q c ∧
        pit_of ps q c + ((List.range k.toNat).countP
          (fun j => landing ps.length m i.toNat (j + 1) = (q, c)) : Nat) ≤ INT_MAX) →
      sow_loop fuel ps m i NPITS k = some r →
      total_pebbles r.1 = total_pebbles ps + k ∧
      ∀ (q c : Nat), pit_of r.1 q c = pit_of ps q c +
        ((List.range k.toNat).countP
          (fun j => landing ps.length m i.toNat (j + 1) = (q, c)) : Nat) := by
  induction fuel with
  | zero => intro ps m i k r _ _ _ _ _ h; simp [sow_loop] at h
  | succ n ih =>
    intro ps m i k r hm hi0 hi1 hk hb h
    unfold sow_loop at h
    by_cases hz : k = 0
    · simp [hz] at h
      subst h
      simp [hz]
    · simp only [hz, if_false] at h
      have hkt : k.toNat = (k - 1).toNat + 1 := by omega
      by_cases hlt : i < (NPITS : Int)
      · simp only [hlt, if_true] at h
        have hget : ps[m]? = some ps[m] := List.getElem?_eq_getElem hm
        simp only [hget] at h
        have hu : i.toNat < NPITS := by omega
        have hcast : (((i.toNat + 1 : Nat) : Nat) : Int) = i + 1 := by omega
        have e1 : (i + 1).toNat = i.toNat + 1 := by omega
        have hcount : ∀ q c : Nat,
            (List.range k.toNat).countP
              (fun j => decide (landing ps.length m i.toNat (j + 1) = (q, c)))
            = (if q = m ∧ (c : Int) = i + 1 then 1 else 0)
              + (List.range (k - 1).toNat).countP
                  (fun j => decide (landing ps.length m (i + 1).toNat (j + 1) = (q, c))) := by
          intro q c
          rw [hkt, countP_range_succ_shift]
          have e0 : (decide (landing ps.length m i.toNat (0 + 1) = (q, c)) = true)
              ↔ (q = m ∧ (c : Int) = i + 1) := by
            rw [Nat.zero_add, landing_one _ _ _ hu]
            simp only [decide_eq_true_eq, Prod.mk.injEq]
            constructor
            · rintro ⟨h1, h2⟩
              exact ⟨h1.symm, by omega⟩
            · rintro ⟨h1, h2⟩
              exact ⟨h1.symm, by omega⟩
          simp only [landing_succ _ _ _ _ hu, e1]
          by_cases hc : q = m ∧ (c : Int) = i + 1
          · rw [if_pos hc, if_pos (e0.2 hc)]
          · rw [if_neg hc, if_neg (fun h => hc (e0.1 h))]
        have hcell := hb m hm (i.toNat + 1) (by omega)
        rw [hcount, hcast, if_pos ⟨rfl, rfl⟩] at hcell
        obtain ⟨htot, hstep⟩ := add_pebble_step ps m (i + 1) hm (by omega) (by omega)
          hcell.1 (by push_cast at hcell; omega)
        have hb2 : ∀ q, q < (ps.set m (add_pebble ps[m] (i + 1))).length →
            ∀ c : Nat, c ≤ NPITS →
            INT_MIN ≤ pit_of (ps.set m (add_pebble ps[m] (i + 1))) q c ∧
            pit_of (ps.set m (add_pebble ps[m] (i + 1))) q c
              + ((List.range (k - 1).toNat).countP
                  (fun j => landing (ps.set m (add_pebble ps[m] (i + 1))).length m
                    (i + 1).toNat (j + 1) = (q, c)) : Nat) ≤ INT_MAX := by
          intro q hq c hc
          rw [List.length_set] at hq
          have hqc := hb q hq c hc
          rw [hcount] at hqc
          rw [hstep, List.length_set]
          by_cases hcond : q = m ∧ (c : Int) = i + 1
          · rw [if_pos hcond] at hqc ⊢
            push_cast at hqc
            omega
          · rw [if_neg hcond] at hqc ⊢
            push_cast at hqc
            omega
        obtain ⟨iht, ihp⟩ := ih _ _ _ _ r (by simpa using hm) (by omega) (by omega)
          (by omega) hb2 h
        refine ⟨by rw [iht, htot]; ring, ?_⟩
        intro q c
        rw [ihp q c, hstep, hcount, List.length_set]
        push_cast
        ring
      · simp only [hlt, if_false] at h
        obtain ⟨q1, hq1, hq1l, hq1e⟩ := next_player_lt ps m hm
        simp only [hq1] at h
        have e1 : i.toNat = NPITS := by omega
        have e2 : ((-1 : Int) + 1).toNat = 0 := by decide
        have hwalk : ∀ q c : Nat,
            (List.range k.toNat).countP
              (fun j => decide (landing ps.length m i.toNat (j + 1) = (q, c)))
            = (List.range k.toNat).countP
              (fun j => decide (row_walk ps.length q1 ((-1 : Int) + 1).toNat j = (q, c))) := by
          intro q c
          rw [e1, e2, hq1e]
          simp only [landing_after_end, row_walk_next _ _ _ hm]
        have hb2 : ∀ q, q < ps.length → ∀ c : Nat, c ≤ NPITS →
            INT_MIN ≤ pit_of ps q c ∧
            pit_of ps q c + ((List.range k.toNat).countP
              (fun j => row_walk ps.length q1 ((-1 : Int) + 1).toNat j = (q, c)) : Nat)
              ≤ INT_MAX := by
          intro q hq c hc
          have := hb q hq c hc
          rw [hwalk] at this
          exact this
        obtain ⟨iht, ihp⟩ := sow_loop_rows n ps q1 (-1) k r hq1l (by omega) (by simp [NPITS])
          hk hb2 h
        refine ⟨iht, ?_⟩
        intro q c
        rw [ihp q c, hwalk]

/-- What `sow` leaves on the boards for an accepted move that takes no pit
past `INT_MAX`: the total is the old total, and every pit of every session
holds its old value (the pit moved from counting as 0) plus the number of
pebbles that the closed form sends to it. -/
theorem sow_closed_form (ps : List player) (p : Nat) (pl : player) (i : Int)
    (r : List player × Nat × Int)
    (hget : ps[p]? = some pl) (h0 : 0 ≤ i) (h1 : i < NPITS) (hk : 0 < pl.pits.get i)
    (hb : ∀ q, q < ps.length → ∀ c : Nat, c ≤ NPITS →
      INT_MIN ≤ pit_of ps q c ∧
      (if q = p ∧ (c : Int) = i then 0 else pit_of ps q c)
        + (landed ps.length p i.toNat (pl.pits.get i).toNat q c : Nat) ≤ INT_MAX)
    (hs : sow ps p pl i = some r) :
    total_pebbles r.1 = total_pebbles ps ∧
    ∀ (q c : Nat), pit_of r.1 q c
      = (if q = p ∧ (c : Int) = i then 0 else pit_of ps q c)
        + (landed ps.length p i.toNat (pl.pits.get i).toNat q c : Nat) := by
  have hp := getElem?_lt hget
  have hpit0 : ∀ q c : Nat,
      pit_of (ps.set p { pl with prompted := 0, pits := pl.pits.put i 0 }) q c
        = if q = p ∧ (c : Int) = i then 0 else pit_of ps q c := by
    intro q c
    rw [pit_of_set _ _ _ _ _ hp]
    by_cases hq : q = p
    · subst hq
      simp only [true_and, if_true, Pits.get_put _ _ _ _ h0 (le_of_lt h1), pit_of, hget]
    · simp [hq]
  have htot0 : total_pebbles (ps.set p { pl with prompted := 0, pits := pl.pits.put i 0 })
      = total_pebbles ps - pl.pits.get i := by
    rw [total_pebbles_set ps p pl _ hget]
    simp only
    rw [Pits.sum_put _ _ _ h0 (le_of_lt h1)]
    ring
  have hb0 : ∀ q, q < (ps.set p { pl with prompted := 0, pits := pl.pits.put i 0 }).length →
      ∀ c : Nat, c ≤ NPITS →
      INT_MIN ≤ pit_of (ps.set p { pl with prompted := 0, pits := pl.pits.put i 0 }) q c ∧
      pit_of (ps.set p { pl with prompted := 0, pits := pl.pits.put i 0 }) q c
        + ((List.range (pl.pits.get i).toNat).countP
            (fun j => landing (ps.set p { pl with prompted := 0, pits := pl.pits.put i 0 }).length
              p i.toNat (j + 1) = (q, c)) : Nat) ≤ INT_MAX := by
    intro q hq c hc
    rw [List.length_set] at hq
    have hqc := hb q hq c hc
    rw [hpit0, List.length_set]
    refine ⟨?_, hqc.2⟩
    by_cases hcond : q = p ∧ (c : Int) = i
    · rw [if_pos hcond]
      decide
    · rw [if_neg hcond]
      exact hqc.1
  obtain ⟨ht, hpits⟩ := sow_loop_first _ _ p i (pl.pits.get i) r (by simpa using hp) h0
    (le_of_lt h1) (le_of_lt hk) hb0 hs
  refine ⟨by rw [ht, htot0]; ring, ?_⟩
  intro q c
  rw [hpits q c, List.length_set, hpit0]
  rfl

theorem landed_end_pit (n m i k q : Nat) (hi : i < NPITS) :
    landed n m i k q NPITS = if q = m ∧ NPITS - i ≤ k then 1 else 0 := by
  unfold landed
  induction k with
  | zero =>
    have : ¬ (q = m ∧ NPITS - i ≤ 0) := by omega
    rw [if_neg this]
    rfl
  | succ k ih =>
    have key : (decide (landing n m i (k + 1) = (q, NPITS)) = true)
        ↔ (q = m ∧ k + 1 = NPITS - i) := by
      unfold landing
      simp only [decide_eq_true_eq]
      by_cases h : k + 1 ≤ NPITS - i
      · rw [if_pos h]
        simp only [Prod.mk.injEq]
        constructor
        · rintro ⟨h1, h2⟩
          exact ⟨h1.symm, by omega⟩
        · rintro ⟨h1, h2⟩
          exact ⟨h1.symm, by omega⟩
      · rw [if_neg h]
        simp only [Prod.mk.injEq]
        constructor
        · rintro ⟨_, h2⟩
          have := Nat.mod_lt (k + 1 - (NPITS - i) - 1) (by decide : NPITS > 0)
          omega
        · rintro ⟨_, h2⟩
          omega
    rw [List.range_succ, List.countP_append, ih, List.countP_singleton]
    by_cases hc : q = m ∧ k + 1 = NPITS - i
    · rw [if_neg (by omega : ¬ (q = m ∧ NPITS - i ≤ k)), if_pos (key.2 hc),
        if_pos ⟨hc.1, by omega⟩]
    · rw [if_neg (fun h => hc (key.1 h))]
      by_cases h4 : q = m ∧ NPITS - i ≤ k
      · rw [if_pos h4, if_pos ⟨h4.1, by omega⟩]
      · have h5 : ¬ (q = m ∧ NPITS - i ≤ k + 1) := by
          rintro ⟨a, b⟩
          by_cases h6 : NPITS - i ≤ k
          · exact h4 ⟨a, h6⟩
          · exact hc ⟨a, by omega⟩
        rw [if_neg h4, if_neg h5]

/-- Once the loop has changed row (`imax = NPITS - 1`) it writes no end pit. -/
theorem sow_loop_rows_end (fuel : Nat) :
    ∀ (ps : List player) (p : Nat) (i k : Int) (r : List player × Nat × Int),
      p < ps.length → -1 ≤ i → i ≤ (NPITS : Int) - 1 →
      sow_loop fuel ps p i ((NPITS : Int) - 1) k = some r →
      ∀ q : Nat, pit_of r.1 q NPITS = pit_of ps q NPITS := by
  induction fuel with
  | zero => intro ps p i k r _ _ _ h; simp [sow_loop] at h
  | succ n ih =>
    intro ps p i k r hp hi0 hi1 h q
    unfold sow_loop at h
    by_cases hz : k = 0
    · simp [hz] at h
      subst h
      rfl
    · simp only [hz, if_false] at h
      by_cases hlt : i < (NPITS : Int) - 1
      · simp only [hlt, if_true] at h
        have hget : ps[p]? = some ps[p] := List.getElem?_eq_getElem hp
        simp only [hget] at h
        rw [ih _ _ _ _ r (by simpa using hp) (by omega) (by omega) h q,
          pit_of_add_pebble ps p q ps[p] (i + 1) NPITS hget (by omega) (by omega),
          if_neg (by omega)]
      · simp only [hlt, if_false] at h
        obtain ⟨q1, hq1, hq1l, _⟩ := next_player_lt ps p hp
        simp only [hq1] at h
        exact ih _ _ _ _ r hq1l (by omega) (by simp [NPITS]) h q

/-- From the pit of the mover on (`imax = NPITS`), the loop writes one end pit
at most: that of the mover, once, when the pebbles in hand reach it. -/
theorem sow_loop_first_end (fuel : Nat) :
    ∀ (ps : List player) (m : Nat) (i k : Int) (r : List player × Nat × Int),
      m < ps.length → 0 ≤ i → i ≤ (NPITS : Int) → 0 ≤ k →
      sow_loop fuel ps m i NPITS k = some r →
      ∀ q : Nat, pit_of r.1 q NPITS
        = if q = m ∧ i < (NPITS : Int) ∧ (NPITS : Int) - i ≤ k
          then int_wrap (pit_of ps q NPITS + 1) else pit_of ps q NPITS := by
  induction fuel with
  | zero => intro ps m i k r _ _ _ _ h; simp [sow_loop] at h
  | succ n ih =>
    intro ps m i k r hm hi0 hi1 hk h q
    unfold sow_loop at h
    by_cases hz : k = 0
    · simp [hz] at h
      subst h
      rw [if_neg (by omega)]
    · simp only [hz, if_false] at h
      by_cases hlt : i < (NPITS : Int)
      · simp only [hlt, if_true] at h
        have hget : ps[m]? = some ps[m] := List.getElem?_eq_getElem hm
        simp only [hget] at h
        have hps := pit_of_add_pebble ps m q ps[m] (i + 1) NPITS hget (by omega) (by omega)
        rw [ih _ _ _ _ r (by simpa using hm) (by omega) (by omega) (by omega) h q]
        by_cases hq : q = m
        · by_cases hi : i + 1 = (NPITS : Int)
          · rw [if_pos ⟨hq, hi.symm⟩] at hps
            rw [if_neg (fun hc => by have := hc.2.1; omega), hps, if_pos ⟨hq, hlt, by omega⟩]
          · rw [if_neg (fun hc => hi hc.2.symm)] at hps
            rw [hps]
            by_cases hc : (NPITS : Int) - i ≤ k
            · rw [if_pos ⟨hq, by omega, by omega⟩, if_pos ⟨hq, hlt, hc⟩]
            · rw [if_neg (fun h => hc (by have := h.2.2; omega)), if_neg (fun h => hc h.2.2)]
        · rw [if_neg (fun hc => hq hc.1)] at hps
          rw [hps, if_neg (fun hc => hq hc.1), if_neg (fun hc => hq hc.1)]
      · simp only [hlt, if_false] at h
        obtain ⟨q1, hq1, hq1l, _⟩ := next_player_lt ps m hm
        simp only [hq1] at h
        rw [sow_loop_rows_end n ps q1 (-1) k r hq1l (by omega) (by simp [NPITS]) h q,
          if_neg (fun hc => hlt hc.2.1)]

/-- What `sow` does to the end pits for an accepted move: the end pit of the
mover gets one pebble, in `int` arithmetic, when the pit moved from holds
`NPITS - i` pebbles or more, and no other end pit is written. -/
theorem sow_end_pits (ps : List player) (p : Nat) (pl : player) (i : Int)
    (r : List player × Nat × Int)
    (hget : ps[p]? = some pl) (h0 : 0 ≤ i) (h1 : i < NPITS) (hk : 0 < pl.pits.get i)
    (hs : sow ps p pl i = some r) :
    ∀ q : Nat, pit_of r.1 q NPITS
      = if q = p ∧ (NPITS : Int) - i ≤ pl.pits.get i
        then int_wrap (pit_of ps q NPITS + 1) else pit_of ps q NPITS := by
  intro q
  have hp := getElem?_lt hget
  have hend : pit_of (ps.set p { pl with prompted := 0, pits := pl.pits.put i 0 }) q NPITS
      = pit_of ps q NPITS := by
    rw [pit_of_set _ _ _ _ _ hp]
    by_cases hq : q = p
    · subst hq
      simp only [if_true, Pits.get_put _ _ _ _ h0 (le_of_lt h1), pit_of, hget]
      rw [if_neg (by omega)]
    · rw [if_neg hq]
  rw [sow_loop_first_end _ _ p i (pl.pits.get i) r (by simpa using hp) h0 (le_of_lt h1)
    (le_of_lt hk) hs q, hend]
  by_cases hc : q = p ∧ (NPITS : Int) - i ≤ pl.pits.get i
  · rw [if_pos hc, if_pos ⟨hc.1, h1, hc.2⟩]
  · rw [if_neg hc, if_neg (fun h => hc ⟨h.1, h.2.2⟩)]

/-- C1 (as stated, refuted). Two registered sessions with non-negative pits,
the mover holding 1 pebble in pit 0 and `INT_MAX` pebbles in pit 1: the move of
pit 0 is valid, the `int` addition on pit 1 wraps, and the sum of all pits goes
from 2147483688 to -2147483608. -/
theorem full_pit_move_loses_pebbles :
    full_pit_game.curr_p = some 1 ∧ full_pit_game.playerlist[1]? = some full_pit ∧
    (∀ q, q < full_pit_game.playerlist.length → ∀ c : Nat, c ≤ NPITS →
      0 ≤ pit_of full_pit_game.playerlist q c) ∧
    0 < full_pit.pits.get 0 ∧
    total_pebbles full_pit_game.playerlist = 2147483688 ∧
    (mov_player full_pit_game 1 0).map (fun x => total_pebbles x.1.playerlist)
      = some (-2147483608) ∧
    (mov_player full_pit_game 1 0).map (fun x => total_pebbles x.1.playerlist)
      ≠ some (total_pebbles full_pit_game.playerlist) := by
  decide

/-- C1 (amended). Conservation: a valid move by the current mover (pit `i` in
`0..NPITS-1` holding `k > 0` pebbles) is carried out by `mov_player`; when the
boards hold `int` values and the move takes no pit past `INT_MAX` (the old
value of each pit, the mover's pit `i` counting as 0, plus the pebbles that
land in it is at most `INT_MAX`), the sum of all pits of all sessions after it
equals the sum before it. -/
theorem mov_player_conserves (s : Server) (p : Nat) (pl : player) (i : Int)
    (hcur : s.curr_p = some p) (hget : s.playerlist[p]? = some pl)
    (h0 : 0 ≤ i) (h1 : i < NPITS) (hk : 0 < pl.pits.get i) :
    ∃ s1 out, mov_player s p i = some (s1, out) ∧
      ((∀ q, q < s.playerlist.length → ∀ c : Nat, c ≤ NPITS →
        INT_MIN ≤ pit_of s.playerlist q c ∧
        (if q = p ∧ (c : Int) = i then 0 else pit_of s.playerlist q c)
          + (landed s.playerlist.length p i.toNat (pl.pits.get i).toNat q c : Nat)
          ≤ INT_MAX) →
        total_pebbles s1.playerlist = total_pebbles s.playerlist) := by
  obtain ⟨r, hr, _⟩ := sow_spec s.playerlist p pl i hget h1 hk
  obtain ⟨out, hout⟩ := mov_player_valid s p pl i r hcur hget h0 h1 (ne_of_gt hk) hr
  exact ⟨_, out, hout,
    fun hb => (sow_closed_form s.playerlist p pl i r hget h0 h1 hk hb hr).1⟩

theorem mov_player_conserves_witness :
    two_opening.curr_p = some 1 ∧ two_opening.playerlist[1]? = some alice ∧
    (0 : Int) ≤ 0 ∧ (0 : Int) < NPITS ∧ 0 < alice.pits.get 0 ∧
    (∀ q, q < two_opening.playerlist.length → ∀ c : Nat, c ≤ NPITS →
      INT_MIN ≤ pit_of two_opening.playerlist q c ∧
      (if q = 1 ∧ (c : Int) = 0 then 0 else pit_of two_opening.playerlist q c)
        + (landed two_opening.playerlist.length 1 (0 : Int).toNat
            (alice.pits.get 0).toNat q c : Nat) ≤ INT_MAX) ∧
    ∃ s1 out, mov_player two_opening 1 0 = some (s1, out) ∧
      total_pebbles s1.playerlist = total_pebbles two_opening.playerlist := by
  obtain ⟨s1, out, hmov, htotal⟩ :=
    mov_player_conserves two_opening 1 alice 0 rfl rfl (by decide) (by decide) (by decide)
  exact ⟨rfl, rfl, by decide, by decide, by decide, by decide,
    s1, out, hmov, htotal (by decide)⟩

/-- C15 (as stated, refuted). Two registered sessions, the mover holding 1
pebble in pit 0 and `INT_MAX` pebbles in pit 1: the one pebble of the valid
move of pit 0 lands in pit 1 of the mover by the closed form, so the old value
plus the pebbles that land is 2147483648, but the `int` addition wraps and pit
1 holds -2147483648 after `mov_player`. -/
theorem full_pit_move_not_closed_form :
    full_pit_game.curr_p = some 1 ∧ full_pit_game.playerlist[1]? = some full_pit ∧
    0 < full_pit.pits.get 0 ∧
    landing full_pit_game.playerlist.length 1 0 1 = (1, 1) ∧
    pit_of full_pit_game.playerlist 1 1
      + (landed full_pit_game.playerlist.length 1 0 (full_pit.pits.get 0).toNat 1 1 : Nat)
      = 2147483648 ∧
    (mov_player full_pit_game 1 0).map (fun x => pit_of x.1.playerlist 1 1)
      = some (-2147483648) := by
  decide

/-- C15 (amended). Sowing equals its closed form: for a valid move of pit `i`
holding `k` pebbles by the session at position `p` of a registry of `n`
sessions, `mov_player` returns (the sowing loop ends); when the boards hold
`int` values and the move takes no pit past `INT_MAX` (the old value of each
pit, the mover's pit `i` counting as 0, plus the pebbles that land in it is at
most `INT_MAX`), afterwards every pit of every session holds its old value (the
mover's pit `i` counting as 0) plus the number of pebbles `j` in `1..k` that
land in it, where pebble `j` lands in pit `i + j` of the mover when
`j <= NPITS - i` and otherwise, with `t = j - (NPITS - i) - 1`, in pit
`t mod NPITS` of the session at position `(p + 1 + t div NPITS) mod n`. -/
theorem mov_player_closed_form (s : Server) (p : Nat) (pl : player) (i : Int)
    (hcur : s.curr_p = some p) (hget : s.playerlist[p]? = some pl)
    (h0 : 0 ≤ i) (h1 : i < NPITS) (hk : 0 < pl.pits.get i) :
    ∃ s1 out, mov_player s p i = some (s1, out) ∧
      ((∀ q, q < s.playerlist.length → ∀ c : Nat, c ≤ NPITS →
        INT_MIN ≤ pit_of s.playerlist q c ∧
        (if q = p ∧ (c : Int) = i then 0 else pit_of s.playerlist q c)
          + (landed s.playerlist.length p i.toNat (pl.pits.get i).toNat q c : Nat)
          ≤ INT_MAX) →
        ∀ (q c : Nat), pit_of s1.playerlist q c
          = (if q = p ∧ (c : Int) = i then 0 else pit_of s.playerlist q c)
            + (landed s.playerlist.length p i.toNat (pl.pits.get i).toNat q c : Nat)) := by
  obtain ⟨r, hr, _⟩ := sow_spec s.playerlist p pl i hget h1 hk
  obtain ⟨out, hout⟩ := mov_player_valid s p pl i r hcur hget h0 h1 (ne_of_gt hk) hr
  exact ⟨_, out, hout,
    fun hb => (sow_closed_form s.playerlist p pl i r hget h0 h1 hk hb hr).2⟩

theorem mov_player_closed_form_witness :
    two_opening.curr_p = some 1 ∧ two_opening.playerlist[1]? = some alice ∧
    (0 : Int) ≤ 5 ∧ (5 : Int) < NPITS ∧ 0 < alice.pits.get 5 ∧
    (∀ q, q < two_opening.playerlist.length → ∀ c : Nat, c ≤ NPITS →
      INT_MIN ≤ pit_of two_opening.playerlist q c ∧
      (if q = 1 ∧ (c : Int) = 5 then 0 else pit_of two_opening.playerlist q c)
        + (landed two_opening.playerlist.length 1 (5 : Int).toNat
            (alice.pits.get 5).toNat q c : Nat) ≤ INT_MAX) ∧
    ∃ s1 out, mov_player two_opening 1 5 = some (s1, out) ∧
      ∀ (q c : Nat), pit_of s1.playerlist q c
        = (if q = 1 ∧ (c : Int) = 5 then 0 else pit_of two_opening.playerlist q c)
          + (landed two_opening.playerlist.length 1 (5 : Int).toNat
              (alice.pits.get 5).toNat q c : Nat) := by
  obtain ⟨s1, out, hmov, hpits⟩ :=
    mov_player_closed_form two_opening 1 alice 5 rfl rfl (by decide) (by decide) (by decide)
  exact ⟨rfl, rfl, by decide, by decide, by decide, by decide,
    s1, out, hmov, hpits (by decide)⟩

/-- C16 (as stated, refuted). Two registered sessions, the mover holding 1
pebble in pit 5 and `INT_MAX` pebbles in its end pit: the valid move of pit 5
has `k = 1 >= NPITS - i = 1`, the `int` addition on the end pit wraps, and the
end pit of the mover goes from 2147483647 to -2147483648: it does not grow by
1. -/
theorem full_end_move_wraps_end_pit :
    full_end_game.curr_p = some 1 ∧ full_end_game.playerlist[1]? = some full_end ∧
    0 < full_end.pits.get 5 ∧ (NPITS : Int) - 5 ≤ full_end.pits.get 5 ∧
    pit_of full_end_game.playerlist 1 NPITS = 2147483647 ∧
    (mov_player full_end_game 1 5).map (fun x => pit_of x.1.playerlist 1 NPITS)
      = some (-2147483648) ∧
    (mov_player full_end_game 1 5).map (fun x => pit_of x.1.playerlist 1 NPITS)
      ≠ some (pit_of full_end_game.playerlist 1 NPITS + 1) := by
  decide

/-- C16 (amended). End pits are protected: for a valid move of pit `i` holding
`k` pebbles by the session at position `p`, whatever `k` is, `mov_player`
returns and the end pit of every other session is unchanged; when the end pit
of the mover holds an `int` value, below `INT_MAX` if `k >= NPITS - i`, it
grows by 1 when `k >= NPITS - i` and is unchanged otherwise. -/
theorem mov_player_end_pits (s : Server) (p : Nat) (pl : player) (i : Int)
    (hcur : s.curr_p = some p) (hget : s.playerlist[p]? = some pl)
    (h0 : 0 ≤ i) (h1 : i < NPITS) (hk : 0 < pl.pits.get i) :
    ∃ s1 out, mov_player s p i = some (s1, out) ∧
      (∀ q, q ≠ p → pit_of s1.playerlist q NPITS = pit_of s.playerlist q NPITS) ∧
      (INT_MIN ≤ pl.pits.get NPITS →
        ((NPITS : Int) - i ≤ pl.pits.get i → pl.pits.get NPITS < INT_MAX) →
        pit_of s1.playerlist p NPITS
          = pit_of s.playerlist p NPITS
            + (if (NPITS : Int) - i ≤ pl.pits.get i then 1 else 0)) := by
  obtain ⟨r, hr, _⟩ := sow_spec s.playerlist p pl i hget h1 hk
  obtain ⟨out, hout⟩ := mov_player_valid s p pl i r hcur hget h0 h1 (ne_of_gt hk) hr
  have hend := sow_end_pits s.playerlist p pl i r hget h0 h1 hk hr
  have hcell : pit_of s.playerlist p NPITS = pl.pits.get NPITS := by simp [pit_of, hget]
  refine ⟨_, out, hout, ?_, ?_⟩
  · intro q hq
    rw [hend q, if_neg (fun hc => hq hc.1)]
  · intro hint hmax
    rw [hend p]
    by_cases hc : (NPITS : Int) - i ≤ pl.pits.get i
    · have := hmax hc
      rw [if_pos ⟨rfl, hc⟩, if_pos hc, hcell,
        int_wrap_id _ (by unfold INT_MIN at *; omega) (by unfold INT_MAX at *; omega)]
    · rw [if_neg (fun h => hc h.2), if_neg hc, add_zero]

theorem mov_player_end_pits_witness :
    two_opening.curr_p = some 1 ∧ two_opening.playerlist[1]? = some alice ∧
    (0 : Int) ≤ 5 ∧ (5 : Int) < NPITS ∧ 0 < alice.pits.get 5 ∧
    INT_MIN ≤ alice.pits.get NPITS ∧
    ((NPITS : Int) - 5 ≤ alice.pits.get 5 → alice.pits.get NPITS < INT_MAX) ∧
    ∃ s1 out, mov_player two_opening 1 5 = some (s1, out) ∧
      (∀ q, q ≠ 1 → pit_of s1.playerlist q NPITS = pit_of two_opening.playerlist q NPITS) ∧
      pit_of s1.playerlist 1 NPITS
        = pit_of two_opening.playerlist 1 NPITS
          + (if (NPITS : Int) - 5 ≤ alice.pits.get 5 then 1 else 0) := by
  obtain ⟨s1, out, hmov, hothers, hown⟩ :=
    mov_player_end_pits two_opening 1 alice 5 rfl rfl (by decide) (by decide) (by decide)
  exact ⟨rfl, rfl, by decide, by decide, by decide, by decide, by decide,
    s1, out, hmov, hothers, hown (by decide) (by decide)⟩

theorem int_of_long_small (v : Int) (h0 : -(2 ^ 31) ≤ v) (h1 : v < 2 ^ 31) :
    int_of_long v = v := by
  unfold int_of_long
  omega

/-- A line whose leading integer fits an `int` is acted on at its value. -/
theorem mov_player_line_small (s : Server) (p : Nat) (mov : List Char)
    (h0 : -(2 ^ 31) ≤ leading_integer mov) (h1 : leading_integer mov < 2 ^ 31) :
    mov_player_line s p mov = mov_player s p (leading_integer mov) := by
  unfold mov_player_line strtol LONG_MAX LONG_MIN
  have e1 : min (2 ^ 63 - 1) (leading_integer mov) = leading_integer mov := by
    apply min_eq_right
    omega
  have e2 : max (-(2 ^ 63)) (leading_integer mov) = leading_integer mov := by
    apply max_eq_right
    omega
  rw [e1, e2, int_of_long_small _ h0 h1]

/-- C19 (the code at the failing input). The current mover sends the line
`4294967296`: its leading integer is 2^32, outside `0..NPITS-1`, but the index
that `mov_player` tests is 0 and the move is carried out on pit 0; a line with
no leading integer is treated like the line `0`. -/
theorem huge_index_wraps_to_pit_zero :
    leading_integer "4294967296".toList = 4294967296 ∧
    int_of_long (strtol "4294967296".toList) = 0 ∧
    mov_player_line two_opening 1 "4294967296".toList = mov_player two_opening 1 0 ∧
    (mov_player_line two_opening 1 "4294967296".toList).map Prod.fst
      = some after_opening_move ∧
    after_opening_move ≠ two_opening ∧
    mov_player_line two_opening 1 "pit".toList = mov_player_line two_opening 1 "0".toList := by
  decide

set_option maxRecDepth 100000 in
/-- C12 (the code at the failing input). A name of `MAXNAME` characters
followed by a line feed, received in one piece by a session that has to give
its name, fills the buffer of `MAXNAME + 1` bytes: `recv_all` returns -1 and
`chk_player` disconnects the session. With one character less the name is
accepted. A move line of `MAXMESSAGE - 1` characters followed by a line feed
is refused in the same way. -/
theorem longest_name_is_refused :
    longest_name.length = MAXNAME ∧
    recv_all [longest_name ++ ['\n']] (MAXNAME + 1) = Recv.too_long ∧
    chk_player ⟨[⟨4, [], opening_pits, 0⟩], none⟩ 0 [longest_name ++ ['\n']]
      = some (⟨[], none⟩, []) ∧
    recv_all [longest_name.tail ++ ['\n']] (MAXNAME + 1) = Recv.line longest_name.tail ∧
    recv_all [List.replicate (MAXMESSAGE - 1) '1' ++ ['\n']] MAXMESSAGE = Recv.too_long := by
  decide

/-- C13 (the code at the failing input). A line made of one blank followed by
a line feed: after the blank is removed `strtrim` tests `buf[len - 1]` with
`len = 0`, a byte before the buffer. -/
theorem blank_line_reads_outside :
    strtrim [' '] = none ∧
    recv_all [[' ', '\n']] MAXMESSAGE = Recv.outside ∧
    recv_all [[' ', '\n']] (MAXNAME + 1) = Recv.outside ∧
    recv_all [" bob \r\n".toList] (MAXNAME + 1) = Recv.line "bob".toList := by
  decide

theorem snprintf_cap (T piece : List Char) (n : Nat) :
    T.take n ++ snprintf (((n + 1 : Nat) : Int) - (T.take n).length) piece
      = (T ++ piece).take n := by
  unfold snprintf
  rw [List.take_append_eq_append_take]
  congr 1
  have hl : (T.take n).length = min n T.length := List.length_take _ _
  have e : (((n + 1 : Nat) : Int) - (T.take n).length - 1).toNat = n - T.length
      ∨ ((((n + 1 : Nat) : Int) - (T.take n).length - 1).toNat = 0 ∧ n - T.length = 0) := by
    rw [hl]
    by_cases h : T.length ≤ n
    · left
      rw [min_eq_right h]
      omega
    · right
      rw [min_eq_left (by omega)]
      omega
  rcases e with e | ⟨e1, e2⟩
  · rw [e]
  · rw [e1, e2]

theorem status_fold_cap (p : player) (L : List Nat) :
    ∀ T : List Char,
      (L.foldl
        (fun (acc : List Char × Int) (i : Nat) =>
          let msg := acc.1 ++ snprintf acc.2
            ("[".toList ++ fmt_d i ++ "]".toList ++ fmt_d (p.pits.get i) ++ " ".toList)
          (msg, (MAXMESSAGE : Int) - msg.length))
        (T.take (MAXMESSAGE - 1),
          (MAXMESSAGE : Int) - (T.take (MAXMESSAGE - 1)).length)).1
      = (T ++ L.flatMap
          (fun i => "[".toList ++ fmt_d i ++ "]".toList ++ fmt_d (p.pits.get i) ++ " ".toList)).take
          (MAXMESSAGE - 1) ∧
      (L.foldl
        (fun (acc : List Char × Int) (i : Nat) =>
          let msg := acc.1 ++ snprintf acc.2
            ("[".toList ++ fmt_d i ++ "]".toList ++ fmt_d (p.pits.get i) ++ " ".toList)
          (msg, (MAXMESSAGE : Int) - msg.length))
        (T.take (MAXMESSAGE - 1),
          (MAXMESSAGE : Int) - (T.take (MAXMESSAGE - 1)).length)).2
      = (MAXMESSAGE : Int) - ((T ++ L.flatMap
          (fun i => "[".toList ++ fmt_d i ++ "]".toList ++ fmt_d (p.pits.get i) ++ " ".toList)).take
          (MAXMESSAGE - 1)).length := by
  induction L with
  | nil => intro T; simp
  | cons a t ih =>
    intro T
    simp only [List.foldl_cons, List.flatMap_cons]
    have hcap := snprintf_cap T
      ("[".toList ++ fmt_d a ++ "]".toList ++ fmt_d (p.pits.get a) ++ " ".toList) (MAXMESSAGE - 1)
    have hM : ((MAXMESSAGE - 1 + 1 : Nat) : Int) = (MAXMESSAGE : Int) := by decide
    rw [hM] at hcap
    rw [hcap]
    have := ih (T ++ ("[".toList ++ fmt_d a ++ "]".toList ++ fmt_d (p.pits.get a) ++ " ".toList))
    simp only [List.append_assoc] at this ⊢
    exact this

/-- Entered with `len = MAXMESSAGE`, as for the first session that
`display_status` renders, the loop body builds the status line of the
specification cut to the `MAXMESSAGE - 1` characters that the buffer holds. -/
theorem status_line_first (p : player) :
    (status_line MAXMESSAGE p).1 = (status_text p).take (MAXMESSAGE - 1) := by
  unfold status_line status_text
  have h0 : snprintf (MAXMESSAGE : Int) (p.name ++ ": ".toList)
      = (p.name ++ ": ".toList).take (MAXMESSAGE - 1) := by
    unfold snprintf
    congr 1
  simp only [h0]
  obtain ⟨f1, f2⟩ := status_fold_cap p (List.range NPITS) (p.name ++ ": ".toList)
  rw [f1, f2]
  have hcap := snprintf_cap
    (p.name ++ ": ".toList ++ (List.range NPITS).flatMap
      (fun i => "[".toList ++ fmt_d i ++ "]".toList ++ fmt_d (p.pits.get i) ++ " ".toList))
    ("[end pit]".toList ++ fmt_d (p.pits.get NPITS) ++ "\r\n".toList) (MAXMESSAGE - 1)
  have hM : ((MAXMESSAGE - 1 + 1 : Nat) : Int) = (MAXMESSAGE : Int) := by decide
  rw [hM] at hcap
  exact hcap

/-- Sessions without a name get no status line. -/
theorem display_status_loop_unnamed (all : List player) (fd : Int) (pre rest : List player)
    (len : Int) (hpre : ∀ q ∈ pre, q.name = []) :
    display_status_loop all fd (pre ++ rest) len = display_status_loop all fd rest len := by
  induction pre with
  | nil => rfl
  | cons a t ih =>
    have ha : a.name = [] := hpre a (List.mem_cons_self _ _)
    simp only [List.cons_append, display_status_loop, ha, if_true]
    exact ih (fun q hq => hpre q (List.mem_cons_of_mem _ hq))

/-- The first registered session of the registry gets the status line of the
specification, cut to `MAXMESSAGE - 1` characters. -/
theorem display_status_first (pre rest : List player) (p : player) (fd : Int)
    (hpre : ∀ q ∈ pre, q.name = []) (hp : p.name ≠ []) (hfd : fd ≠ -1) :
    display_status (pre ++ p :: rest) fd
      = send_all fd ((status_text p).take (MAXMESSAGE - 1))
        ++ display_status_loop (pre ++ p :: rest) fd rest (status_line MAXMESSAGE p).2 := by
  unfold display_status
  rw [display_status_loop_unnamed _ _ _ _ _ hpre]
  simp only [display_status_loop, hp, if_false, hfd, status_line_first]

set_option maxRecDepth 100000 in
theorem reachable_long_names : Reachable long_names := by
  obtain ⟨o1, h1⟩ := eq_some_of_map_fst
    (by decide : (acc_player Server.init 4).map Prod.fst
      = some ⟨[⟨4, [], opening_pits, 0⟩], none⟩)
  obtain ⟨o2, h2⟩ := eq_some_of_map_fst
    (by decide : (acc_player ⟨[⟨4, [], opening_pits, 0⟩], none⟩ 5).map Prod.fst
      = some ⟨[⟨5, [], opening_pits, 0⟩, ⟨4, [], opening_pits, 0⟩], none⟩)
  obtain ⟨o3, h3⟩ := eq_some_of_map_fst
    (by decide : (add_player ⟨[⟨5, [], opening_pits, 0⟩, ⟨4, [], opening_pits, 0⟩], none⟩ 1
        (List.replicate 40 'a')).map Prod.fst
      = some ⟨[⟨5, [], opening_pits, 0⟩, forty], some 1⟩)
  obtain ⟨o4, h4⟩ := eq_some_of_map_fst
    (by decide : (add_player ⟨[⟨5, [], opening_pits, 0⟩, forty], some 1⟩ 0
        (List.replicate 60 'b')).map Prod.fst
      = some long_names)
  exact Reachable.add 0 ⟨5, [], opening_pits, 0⟩ (List.replicate 60 'b')
    (Reachable.add 1 ⟨4, [], opening_pits, 0⟩ (List.replicate 40 'a')
      (Reachable.acc 5 (Reachable.acc 4 Reachable.init h1) h2)
      rfl rfl h3)
    rfl rfl h4

set_option maxRecDepth 100000 in
/-- C11 (the code at the failing input). Two sessions have registered, with
names of 40 and of 60 characters. The status report renders the session with
the 60 characters first and in full; for the second session `snprintf` is
called with the value of `len` that the first line left (38), so only 37
characters of its name are written and the `: ` after the name is lost. -/
theorem second_status_line_is_cut :
    Reachable long_names ∧
    display_status long_names.playerlist 5
      = [(5, status_text sixty),
         (5, List.replicate 37 'a'
              ++ "[0]4 [1]4 [2]4 [3]4 [4]4 [5]4 [end pit]0\r\n".toList)] ∧
    status_text forty
      = List.replicate 40 'a' ++ ": [0]4 [1]4 [2]4 [3]4 [4]4 [5]4 [end pit]0\r\n".toList ∧
    (status_line MAXMESSAGE sixty).2 = 38 :=
  ⟨reachable_long_names, by decide, by decide, by decide⟩

theorem strip_tail_none_iff (l : List Char) :
    strip_tail l = none ↔ ∀ x ∈ l, isspace x = true := by
  induction l with
  | nil => simp [strip_tail]
  | cons a t ih =>
    unfold strip_tail
    by_cases ha : isspace a = true
    · simp [ha, ih]
    · simp [ha]

theorem strip_tail_some (l : List Char) (h : ∃ x ∈ l, isspace x = false) :
    strip_tail l = some (l.dropWhile isspace) := by
  induction l with
  | nil => simp at h
  | cons a t ih =>
    unfold strip_tail
    by_cases ha : isspace a = true
    · rw [if_pos ha, List.dropWhile_cons_of_pos ha]
      apply ih
      obtain ⟨x, hx, hxs⟩ := h
      rcases List.mem_cons.1 hx with rfl | hx
      · rw [ha] at hxs; simp at hxs
      · exact ⟨x, hx, hxs⟩
    · rw [if_neg ha, List.dropWhile_cons_of_neg ha]

/-- Function `strtrim` reads a byte before the buffer exactly when the string
is not empty and made of white space only. -/
theorem strtrim_none_iff (buf : List Char) :
    strtrim buf = none ↔ buf ≠ [] ∧ ∀ x ∈ buf, isspace x = true := by
  unfold strtrim
  by_cases hb : buf = []
  · simp [hb]
  · rw [if_neg hb]
    cases hs : strip_tail buf.reverse with
    | none =>
      simp only [true_iff]
      refine ⟨hb, ?_⟩
      have := (strip_tail_none_iff buf.reverse).1 hs
      intro x hx
      exact this x (List.mem_reverse.2 hx)
    | some t =>
      constructor
      · intro h
        simp at h
      · rintro ⟨_, hall⟩
        have : strip_tail buf.reverse = none :=
          (strip_tail_none_iff buf.reverse).2 (fun x hx => hall x (List.mem_reverse.1 hx))
        rw [this] at hs
        simp at hs

/-- On a string that holds a byte other than white space, `strtrim` stays
inside the buffer and leaves the string without its leading and trailing
white space. -/
theorem strtrim_some (buf : List Char) (h : ∃ x ∈ buf, isspace x = false) :
    strtrim buf = some (trimmed buf) := by
  unfold strtrim trimmed
  have hb : buf ≠ [] := by
    rintro rfl
    simp at h
  rw [if_neg hb]
  have h2 : ∃ x ∈ buf.reverse, isspace x = false := by
    obtain ⟨x, hx, hxs⟩ := h
    exact ⟨x, List.mem_reverse.2 hx, hxs⟩
  rw [strip_tail_some _ h2]

/-- One call of `recv` that brings bytes without a terminator and leaves room:
the loop stores them and goes on. -/
theorem recv_loop_no_terminator (c : List Char) (rest : List (List Char)) (buf : List Char)
    (room : Int) (hne : c ≠ []) (hroom : (c.length : Int) < room)
    (hterm : c.any is_terminator = false) :
    recv_loop (c :: rest) buf room = recv_loop rest (buf ++ c) (room - c.length) := by
  have htake : c.take room.toNat = c := List.take_of_length_le (by omega)
  rw [recv_loop]
  simp only [htake]
  rw [if_neg hne, if_neg (by omega)]
  simp [hterm]

/-- A single call of `recv` that brings the bytes `c`: `recv_all` returns -1
exactly when `c` has at least `len` bytes, whether or not a terminator is
among them. -/
theorem recv_all_one_chunk_too_long (c : List Char) (rest : List (List Char)) (len : Nat)
    (hne : c ≠ []) (hlen : 0 < len) (hterm : c.any is_terminator = true) :
    recv_all (c :: rest) len = Recv.too_long ↔ len ≤ c.length := by
  unfold recv_all recv_loop
  have hgot : c.take (len : Int).toNat ≠ [] := by
    cases c with
    | nil => exact absurd rfl hne
    | cons a t =>
      have : (len : Int).toNat = (len - 1) + 1 := by omega
      rw [this]
      simp
  have hl : (c.take (len : Int).toNat).length = min len c.length := by
    rw [List.length_take]
    simp
  simp only [hgot, if_false, hl]
  by_cases h : len ≤ c.length
  · rw [min_eq_left h]
    simp [h]
  · rw [min_eq_right (by omega)]
    have h2 : ¬ ((len : Int) - (c.length : Int) ≤ 0) := by omega
    rw [if_neg h2]
    simp only [h, iff_false]
    split_ifs
    · split <;> simp
    · rw [List.take_of_length_le (by omega)] at *
      simp_all

/-- A single call of `recv` that brings fewer than `len` bytes, a terminator
among them, no NUL before it and a byte other than white space before it:
`recv_all` returns 1 and leaves in the buffer the bytes before the first
terminator without their leading and trailing white space. -/
theorem recv_all_one_chunk_line (c : List Char) (rest : List (List Char)) (len : Nat)
    (hlen : c.length < len) (hterm : c.any is_terminator = true)
    (hnul : ∀ x ∈ c.takeWhile (fun x => !is_terminator x), x ≠ '\x00')
    (hns : ∃ x ∈ c.takeWhile (fun x => !is_terminator x), isspace x = false) :
    recv_all (c :: rest) len = Recv.line (trimmed (c.takeWhile (fun x => !is_terminator x))) := by
  have hne : c ≠ [] := by
    rintro rfl
    simp at hterm
  have htake : c.take (len : Int).toNat = c := List.take_of_length_le (by omega)
  have hcs : cstring (c.takeWhile (fun x => !is_terminator x))
      = c.takeWhile (fun x => !is_terminator x) := by
    unfold cstring
    rw [List.takeWhile_eq_self_iff]
    intro x hx
    simpa using hnul x hx
  unfold recv_all recv_loop
  simp only [htake]
  rw [if_neg hne, if_neg (by omega), if_pos hterm]
  simp only [List.nil_append, hcs, strtrim_some _ hns]

/-- Every run of `chk_player` on a node of the list is one of the steps of
`Reachable`: a disconnect, a registration attempt by a session without a name,
or a move by a session with one. -/
theorem reachable_chk_player (s s1 : Server) (p : Nat) (chunks : List (List Char))
    (out : List Send) (h : Reachable s) (hc : chk_player s p chunks = some (s1, out)) :
    Reachable s1 := by
  unfold chk_player at hc
  cases hget : s.playerlist[p]? with
  | none => simp [hget] at hc
  | some pl =>
    simp only [hget] at hc
    by_cases hn : pl.name = []
    · rw [if_pos hn] at hc
      cases hr : recv_all chunks (MAXNAME + 1) with
      | closed => rw [hr] at hc; exact Reachable.del p h hc
      | too_long => rw [hr] at hc; exact Reachable.del p h hc
      | line msg => rw [hr] at hc; exact Reachable.add p pl msg h hget hn hc
      | outside => rw [hr] at hc; simp at hc
      | blocks => rw [hr] at hc; simp at hc
    · rw [if_neg hn] at hc
      cases hr : recv_all chunks MAXMESSAGE with
      | closed => rw [hr] at hc; exact Reachable.del p h hc
      | too_long => rw [hr] at hc; exact Reachable.del p h hc
      | line msg =>
        rw [hr] at hc
        exact Reachable.mov p pl (int_of_long (strtol msg)) h hget hn hc
      | outside => rw [hr] at hc; simp at hc
      | blocks => rw [hr] at hc; simp at hc

end Mancala
